import Mathlib

/-!
Verification of the sharded AVL key-value store (repository `AVLTree`).

The development shallowly embeds the C++ sources:

* `src/include/AVLTreeConcurrent.h` — the single-shard balanced ordered map
  (BOM).  Its tree operations (`insertRec`, `removeRec`, `rebalance`,
  rotations, `findMin`, `containsRec`, `getRec`) are translated to pure
  functions on an inductive tree with `Int` keys/values (the C++ class is a
  template; the benchmarks instantiate it at integer types).  Stored node
  heights are `Int`, like the C++ `int height` field.  The lock acquisitions
  are invisible in a sequential embedding; exceptions are modelled as
  `Except` values.
* `src/include/AVLTreeAdaptive.h` — the sharded store.  The router object
  (`AdaptiveRouter.h` is not part of `src/`) is passed to each operation as
  the function `route` it currently computes; the router load counters
  touched by `recordInsertion` / `recordRemoval` are kept in the store state.
  The per-shard tree type `AVLTree<K,V>` (`AVLTree.h` is also absent from
  `src/`) is modelled by the in-`src` BOM of `AVLTreeConcurrent.h`, which the
  spec mandates as the shard backend.
* `src/include/redirect_index.hpp` — the redirect index, as an association
  list keyed by `Int` (the C++ `unordered_map` with unique keys).
* `src/diccAVL.cpp` — the `DiccionarioAVL` dictionary (`definir` and its
  helpers).
-/

/-- A node of the concurrent AVL tree (`AVLTreeConcurrent.h`, struct `Node`):
key, value, left and right children, stored height (the C++ `int height`,
initialised to 1 for a fresh node). `nil` is the null pointer. -/
inductive AVLNode where
  | nil : AVLNode
  | node (key value : Int) (left right : AVLNode) (h : Int) : AVLNode
deriving DecidableEq, Repr

/-- `height(n)`: `n ? n->height : 0`. -/
def height : AVLNode → Int
  | .nil => 0
  | .node _ _ _ _ h => h

/-- `balanceFactor(n)`: `n ? height(n->right) - height(n->left) : 0`. -/
def balanceFactor : AVLNode → Int
  | .nil => 0
  | .node _ _ l r _ => height r - height l

/-- `rotateLeft(x)`: promotes `y = x->right`; `x->right = y->left`,
`y->left = x`, then `updateHeight(x); updateHeight(y)`.  The C++ dereferences
`x->right`, so it is only called with a non-null right child; on other shapes
the model returns the input unchanged. -/
def rotateLeft : AVLNode → AVLNode
  | .node k v l (.node rk rv rl rr _) _ =>
      let x : AVLNode := .node k v l rl (1 + max (height l) (height rl))
      .node rk rv x rr (1 + max (height x) (height rr))
  | t => t

/-- `rotateRight(x)`: mirror of `rotateLeft`. -/
def rotateRight : AVLNode → AVLNode
  | .node k v (.node lk lv ll lr _) r _ =>
      let x : AVLNode := .node k v lr r (1 + max (height lr) (height r))
      .node lk lv ll x (1 + max (height ll) (height x))
  | t => t

/-- `rebalance(node)`: `updateHeight(node)` then dispatch on the balance
factor; LR and RL double rotations rotate the child first
(`AVLTreeConcurrent.h` lines 79-100). -/
def rebalance : AVLNode → AVLNode
  | .nil => .nil
  | .node k v l r _ =>
      let bf := height r - height l
      if bf < -1 then
        if balanceFactor l > 0 then
          rotateRight (.node k v (rotateLeft l) r (1 + max (height l) (height r)))
        else
          rotateRight (.node k v l r (1 + max (height l) (height r)))
      else if bf > 1 then
        if balanceFactor r < 0 then
          rotateLeft (.node k v l (rotateRight r) (1 + max (height l) (height r)))
        else
          rotateLeft (.node k v l r (1 + max (height l) (height r)))
      else
        .node k v l r (1 + max (height l) (height r))

/-- `insertRec(node, key, value, inserted&)`: returns the new subtree and the
`inserted` flag.  On an equal key the value is overwritten and the node is
returned without rebalancing (`AVLTreeConcurrent.h` lines 102-124). -/
def insertRec (t : AVLNode) (key value : Int) : AVLNode × Bool :=
  match t with
  | .nil => (.node key value .nil .nil 1, true)
  | .node k v l r h =>
      if key < k then
        let p := insertRec l key value
        (rebalance (.node k v p.1 r h), p.2)
      else if k < key then
        let p := insertRec r key value
        (rebalance (.node k v l p.1 h), p.2)
      else
        (.node k value l r h, false)

/-- `findMin(node)`: walk `left` while possible (may return null on null
input), `AVLTreeConcurrent.h` lines 126-131. -/
def findMin : AVLNode → AVLNode
  | .nil => .nil
  | .node k v .nil r h => .node k v .nil r h
  | .node _ _ (.node lk lv ll lr lh) _ _ => findMin (.node lk lv ll lr lh)

/-- `removeRec(node, key, removed&)`: BST removal with in-order-successor
replacement for two-children nodes, rebalancing on the way out
(`AVLTreeConcurrent.h` lines 133-160).  The C++ `removed` flag is set `true`
and then overwritten by the recursive successor removal, so the returned flag
in the two-children case is the inner call's flag.  The `findMin` of a
non-null tree is never null; the `.nil` match arm is unreachable. -/
def removeRec (t : AVLNode) (key : Int) : AVLNode × Bool :=
  match t with
  | .nil => (.nil, false)
  | .node k v l r h =>
      if key < k then
        let p := removeRec l key
        (rebalance (.node k v p.1 r h), p.2)
      else if k < key then
        let p := removeRec r key
        (rebalance (.node k v l p.1 h), p.2)
      else
        match l, r with
        | .nil, _ => (r, true)
        | .node lk lv ll lr lh, .nil => (.node lk lv ll lr lh, true)
        | .node lk lv ll lr lh, .node rk rv rl rr rh =>
            match findMin (.node rk rv rl rr rh) with
            | .node sk sv _ _ _ =>
                let p := removeRec (.node rk rv rl rr rh) sk
                (rebalance (.node sk sv (.node lk lv ll lr lh) p.1 h), p.2)
            | .nil => (.nil, true)

/-- `containsRec(node, key)` (`AVLTreeConcurrent.h` lines 162-167). -/
def containsRec : AVLNode → Int → Bool
  | .nil, _ => false
  | .node k _ l r _, key =>
      if key == k then true
      else if key < k then containsRec l key
      else containsRec r key

/-- Error surface of the BOM: `getRec` throws `"Key not found"`, `minKey` /
`maxKey` throw `"Empty tree"`. -/
inductive TreeError where
  | notFound : TreeError
  | empty : TreeError
deriving DecidableEq, Repr

/-- `getRec(node, key)`: the throw on a null node is the `notFound` error
(`AVLTreeConcurrent.h` lines 169-174). -/
def getRec : AVLNode → Int → Except TreeError Int
  | .nil, _ => .error .notFound
  | .node k v l r _, key =>
      if key == k then .ok v
      else if key < k then getRec l key
      else getRec r key

/-- `maxKey`'s loop: walk `right` while possible. -/
def findMaxNode : AVLNode → AVLNode
  | .nil => .nil
  | .node k v l .nil h => .node k v l .nil h
  | .node _ _ _ (.node rk rv rl rr rh) _ => findMaxNode (.node rk rv rl rr rh)

/-- The public `AVLTreeConcurrent` object: root pointer and the `size_`
counter. -/
structure AVLTreeC where
  root : AVLNode
  size : Nat
deriving DecidableEq, Repr

/-- `AVLTreeConcurrent::insert` (lines 182-187): thread `insertRec`, bump
`size_` iff the flag is set. -/
def AVLTreeC.insert (t : AVLTreeC) (key value : Int) : AVLTreeC :=
  let p := insertRec t.root key value
  { root := p.1, size := if p.2 then t.size + 1 else t.size }

/-- `AVLTreeConcurrent::remove` (lines 190-195). -/
def AVLTreeC.remove (t : AVLTreeC) (key : Int) : AVLTreeC :=
  let p := removeRec t.root key
  { root := p.1, size := if p.2 then t.size - 1 else t.size }

/-- `AVLTreeConcurrent::contains`. -/
def AVLTreeC.contains (t : AVLTreeC) (key : Int) : Bool :=
  containsRec t.root key

/-- `AVLTreeConcurrent::get`. -/
def AVLTreeC.get (t : AVLTreeC) (key : Int) : Except TreeError Int :=
  getRec t.root key

/-- `AVLTreeConcurrent::minKey` (lines 221-226). -/
def AVLTreeC.minKey (t : AVLTreeC) : Except TreeError Int :=
  match findMin t.root with
  | .nil => .error .empty
  | .node k _ _ _ _ => .ok k

/-- `AVLTreeConcurrent::maxKey` (lines 228-236). -/
def AVLTreeC.maxKey (t : AVLTreeC) : Except TreeError Int :=
  match findMaxNode t.root with
  | .nil => .error .empty
  | .node k _ _ _ _ => .ok k

/-- All keys of the tree satisfy the boolean predicate `p`. -/
def allKeys (p : Int → Bool) : AVLNode → Bool
  | .nil => true
  | .node k _ l r _ => p k && allKeys p l && allKeys p r

/-- The BST ordering invariant: left keys strictly below, right keys strictly
above, recursively. -/
def isBST : AVLNode → Bool
  | .nil => true
  | .node k _ l r _ =>
      allKeys (fun x => decide (x < k)) l && allKeys (fun x => decide (k < x)) r &&
      isBST l && isBST r

/-- The stored-height invariant: every stored height is
`1 + max (height left) (height right)`. -/
def heightsOK : AVLNode → Bool
  | .nil => true
  | .node _ _ l r h =>
      decide (h = 1 + max (height l) (height r)) && heightsOK l && heightsOK r

/-- The AVL balance invariant: `|height right - height left| ≤ 1` at every
node. -/
def balancedOK : AVLNode → Bool
  | .nil => true
  | .node _ _ l r _ =>
      decide ((height r - height l).natAbs ≤ 1) && balancedOK l && balancedOK r

/-- Key membership (independent of search paths, hence meaningful on
arbitrary trees). -/
def memK (x : Int) : AVLNode → Bool
  | .nil => false
  | .node k _ l r _ => x == k || memK x l || memK x r

/-- Entry membership: the pair `(x, w)` is stored at some node. -/
def memVal (x w : Int) : AVLNode → Bool
  | .nil => false
  | .node k v l r _ => (x == k && w == v) || memVal x w l || memVal x w r

/-! Basic facts about the invariant predicates. -/

theorem height_nonneg {t : AVLNode} (h : heightsOK t = true) : 0 ≤ height t := by
  induction t with
  | nil => simp [height]
  | node k v l r hh ihl ihr =>
      simp only [heightsOK, Bool.and_eq_true, decide_eq_true_eq] at h
      obtain ⟨⟨h1, h2⟩, h3⟩ := h
      have := ihl h2
      have := ihr h3
      simp only [height]
      omega

theorem allKeys_mono {p q : Int → Bool} (hpq : ∀ x, p x = true → q x = true) :
    ∀ {t : AVLNode}, allKeys p t = true → allKeys q t = true := by
  intro t
  induction t with
  | nil => simp [allKeys]
  | node k v l r hh ihl ihr =>
      simp only [allKeys, Bool.and_eq_true]
      rintro ⟨⟨h1, h2⟩, h3⟩
      exact ⟨⟨hpq _ h1, ihl h2⟩, ihr h3⟩

theorem allKeys_mem {p : Int → Bool} {x : Int} :
    ∀ {t : AVLNode}, allKeys p t = true → memK x t = true → p x = true := by
  intro t
  induction t with
  | nil => simp [memK]
  | node k v l r hh ihl ihr =>
      simp only [allKeys, memK, Bool.and_eq_true, Bool.or_eq_true, beq_iff_eq]
      rintro ⟨⟨h1, h2⟩, h3⟩ (⟨rfl | hm⟩ | hm)
      · exact h1
      · exact ihl h2 hm
      · exact ihr h3 hm

theorem memK_of_allKeys_intro {p : Int → Bool} :
    ∀ {t : AVLNode}, (∀ x, memK x t = true → p x = true) → allKeys p t = true := by
  intro t
  induction t with
  | nil => simp [allKeys]
  | node k v l r hh ihl ihr =>
      intro hmem
      simp only [allKeys, Bool.and_eq_true]
      refine ⟨⟨hmem k (by simp [memK]), ihl fun x hx => hmem x (by simp [memK, hx])⟩,
        ihr fun x hx => hmem x (by simp [memK, hx])⟩

theorem memVal_memK {x w : Int} :
    ∀ {t : AVLNode}, memVal x w t = true → memK x t = true := by
  intro t
  induction t with
  | nil => simp [memVal, memK]
  | node k v l r hh ihl ihr =>
      simp only [memVal, memK, Bool.or_eq_true, Bool.and_eq_true, beq_iff_eq]
      rintro (⟨⟨rfl, _⟩ | hm⟩ | hm)
      · exact Or.inl (Or.inl rfl)
      · exact Or.inl (Or.inr (ihl hm))
      · exact Or.inr (ihr hm)

/-! Rotations and `rebalance` permute node contents: `allKeys`, `memK` and
`memVal` are invariant. -/

theorem rotateLeft_allKeys (p : Int → Bool) (t : AVLNode) :
    allKeys p (rotateLeft t) = allKeys p t := by
  cases t with
  | nil => rfl
  | node k v l r h =>
      cases r with
      | nil => rfl
      | node rk rv rl rr rh =>
          simp only [rotateLeft, allKeys]
          cases p k <;> cases p rk <;> cases allKeys p l <;>
            cases allKeys p rl <;> cases allKeys p rr <;> rfl

theorem rotateRight_allKeys (p : Int → Bool) (t : AVLNode) :
    allKeys p (rotateRight t) = allKeys p t := by
  cases t with
  | nil => rfl
  | node k v l r h =>
      cases l with
      | nil => rfl
      | node lk lv ll lr lh =>
          simp only [rotateRight, allKeys]
          cases p k <;> cases p lk <;> cases allKeys p ll <;>
            cases allKeys p lr <;> cases allKeys p r <;> rfl

theorem rebalance_allKeys (p : Int → Bool) (t : AVLNode) :
    allKeys p (rebalance t) = allKeys p t := by
  cases t with
  | nil => rfl
  | node k v l r h =>
      simp only [rebalance]
      split
      · split
        · rw [rotateRight_allKeys]
          simp only [allKeys, rotateLeft_allKeys]
        · rw [rotateRight_allKeys]
          simp only [allKeys]
      · split
        · split
          · rw [rotateLeft_allKeys]
            simp only [allKeys, rotateRight_allKeys]
          · rw [rotateLeft_allKeys]
            simp only [allKeys]
        · simp only [allKeys]

theorem rotateLeft_memK (x : Int) (t : AVLNode) :
    memK x (rotateLeft t) = memK x t := by
  cases t with
  | nil => rfl
  | node k v l r h =>
      cases r with
      | nil => rfl
      | node rk rv rl rr rh =>
          simp only [rotateLeft, memK]
          cases x == k <;> cases x == rk <;> cases memK x l <;>
            cases memK x rl <;> cases memK x rr <;> rfl

theorem rotateRight_memK (x : Int) (t : AVLNode) :
    memK x (rotateRight t) = memK x t := by
  cases t with
  | nil => rfl
  | node k v l r h =>
      cases l with
      | nil => rfl
      | node lk lv ll lr lh =>
          simp only [rotateRight, memK]
          cases x == k <;> cases x == lk <;> cases memK x ll <;>
            cases memK x lr <;> cases memK x r <;> rfl

theorem rebalance_memK (x : Int) (t : AVLNode) :
    memK x (rebalance t) = memK x t := by
  cases t with
  | nil => rfl
  | node k v l r h =>
      simp only [rebalance]
      split
      · split
        · rw [rotateRight_memK]
          simp only [memK, rotateLeft_memK]
        · rw [rotateRight_memK]
          simp only [memK]
      · split
        · split
          · rw [rotateLeft_memK]
            simp only [memK, rotateRight_memK]
          · rw [rotateLeft_memK]
            simp only [memK]
        · simp only [memK]

theorem rotateLeft_memVal (x w : Int) (t : AVLNode) :
    memVal x w (rotateLeft t) = memVal x w t := by
  cases t with
  | nil => rfl
  | node k v l r h =>
      cases r with
      | nil => rfl
      | node rk rv rl rr rh =>
          simp only [rotateLeft, memVal]
          cases (x == k && w == v) <;> cases (x == rk && w == rv) <;>
            cases memVal x w l <;> cases memVal x w rl <;> cases memVal x w rr <;> rfl

theorem rotateRight_memVal (x w : Int) (t : AVLNode) :
    memVal x w (rotateRight t) = memVal x w t := by
  cases t with
  | nil => rfl
  | node k v l r h =>
      cases l with
      | nil => rfl
      | node lk lv ll lr lh =>
          simp only [rotateRight, memVal]
          cases (x == k && w == v) <;> cases (x == lk && w == lv) <;>
            cases memVal x w ll <;> cases memVal x w lr <;> cases memVal x w r <;> rfl

theorem rebalance_memVal (x w : Int) (t : AVLNode) :
    memVal x w (rebalance t) = memVal x w t := by
  cases t with
  | nil => rfl
  | node k v l r h =>
      simp only [rebalance]
      split
      · split
        · rw [rotateRight_memVal]
          simp only [memVal, rotateLeft_memVal]
        · rw [rotateRight_memVal]
          simp only [memVal]
      · split
        · split
          · rw [rotateLeft_memVal]
            simp only [memVal, rotateRight_memVal]
          · rw [rotateLeft_memVal]
            simp only [memVal]
        · simp only [memVal]

/-! Constructor-level rewriting equations (so that applications at variables
stay atomic for `omega`). -/

@[simp] theorem height_nil : height .nil = 0 := rfl

@[simp] theorem height_node (k v : Int) (l r : AVLNode) (h : Int) :
    height (.node k v l r h) = h := rfl

theorem balanceFactor_node (k v : Int) (l r : AVLNode) (h : Int) :
    balanceFactor (.node k v l r h) = height r - height l := rfl

theorem heightsOK_node (k v : Int) (l r : AVLNode) (h : Int) :
    heightsOK (.node k v l r h) =
      (decide (h = 1 + max (height l) (height r)) && heightsOK l && heightsOK r) := rfl

theorem balancedOK_node (k v : Int) (l r : AVLNode) (h : Int) :
    balancedOK (.node k v l r h) =
      (decide ((height r - height l).natAbs ≤ 1) && balancedOK l && balancedOK r) := rfl

theorem allKeys_node (p : Int → Bool) (k v : Int) (l r : AVLNode) (h : Int) :
    allKeys p (.node k v l r h) = (p k && allKeys p l && allKeys p r) := rfl

theorem isBST_node (k v : Int) (l r : AVLNode) (h : Int) :
    isBST (.node k v l r h) =
      (allKeys (fun x => decide (x < k)) l && allKeys (fun x => decide (k < x)) r &&
       isBST l && isBST r) := rfl

theorem memK_node (x k v : Int) (l r : AVLNode) (h : Int) :
    memK x (.node k v l r h) = (x == k || memK x l || memK x r) := rfl

theorem memVal_node (x w k v : Int) (l r : AVLNode) (h : Int) :
    memVal x w (.node k v l r h) =
      ((x == k && w == v) || memVal x w l || memVal x w r) := rfl

/-- Soundness of `rebalance` for the height and balance invariants: on a node
whose children satisfy both invariants and whose own imbalance is at most 2,
`rebalance` restores both invariants; the resulting height is the recomputed
height `1 + max hl hr` or one less, and exactly the recomputed height when no
rotation fires. -/
theorem rebalance_hok_bal (k v : Int) (l r : AVLNode) (h : Int)
    (hl : heightsOK l = true) (hr : heightsOK r = true)
    (bl : balancedOK l = true) (br : balancedOK r = true)
    (hd : (height r - height l).natAbs ≤ 2) :
    heightsOK (rebalance (.node k v l r h)) = true ∧
    balancedOK (rebalance (.node k v l r h)) = true ∧
    (height (rebalance (.node k v l r h)) = 1 + max (height l) (height r) ∨
     height (rebalance (.node k v l r h)) = max (height l) (height r)) ∧
    ((height r - height l).natAbs ≤ 1 →
      height (rebalance (.node k v l r h)) = 1 + max (height l) (height r)) := by
  have hLnn := height_nonneg hl
  have hRnn := height_nonneg hr
  simp only [rebalance]
  by_cases hc1 : height r - height l < -1
  · rw [if_pos hc1]
    have hlr2 : height l = height r + 2 := by omega
    cases l with
    | nil => rw [height_nil] at hlr2; omega
    | node lk lv ll lr lh =>
      rw [heightsOK_node, Bool.and_eq_true, Bool.and_eq_true, decide_eq_true_eq] at hl
      rw [balancedOK_node, Bool.and_eq_true, Bool.and_eq_true, decide_eq_true_eq] at bl
      obtain ⟨⟨hlh, hokll⟩, hoklr⟩ := hl
      obtain ⟨⟨hbl0, hballl⟩, hballr⟩ := bl
      have hlln := height_nonneg hokll
      have hlrn := height_nonneg hoklr
      rw [height_node] at hlr2 hc1 hd hLnn
      by_cases hc2 : balanceFactor (.node lk lv ll lr lh) > 0
      · rw [if_pos hc2]
        rw [balanceFactor_node] at hc2
        cases lr with
        | nil => rw [height_nil] at hc2; omega
        | node ck cv cl cr ch =>
          rw [heightsOK_node, Bool.and_eq_true, Bool.and_eq_true,
            decide_eq_true_eq] at hoklr
          rw [balancedOK_node, Bool.and_eq_true, Bool.and_eq_true,
            decide_eq_true_eq] at hballr
          obtain ⟨⟨hch, hokcl⟩, hokcr⟩ := hoklr
          obtain ⟨⟨hbc, hbalcl⟩, hbalcr⟩ := hballr
          have hcln := height_nonneg hokcl
          have hcrn := height_nonneg hokcr
          rw [height_node] at hc2 hlh hbl0 hlrn
          simp only [rotateLeft, rotateRight, height_node, height_nil, heightsOK_node,
            balancedOK_node, Bool.and_eq_true, decide_eq_true_eq]
          and_intros <;> first | assumption | trivial | omega | simp
      · rw [if_neg hc2]
        rw [balanceFactor_node] at hc2
        cases ll with
        | nil =>
            rw [height_nil] at hc2 hlh hbl0 hlln
            omega
        | node ak av al ar ah =>
          rw [heightsOK_node, Bool.and_eq_true, Bool.and_eq_true,
            decide_eq_true_eq] at hokll
          rw [balancedOK_node, Bool.and_eq_true, Bool.and_eq_true,
            decide_eq_true_eq] at hballl
          obtain ⟨⟨hah, hokal⟩, hokar⟩ := hokll
          obtain ⟨⟨hba, hbalal⟩, hbalar⟩ := hballl
          have haln := height_nonneg hokal
          have harn := height_nonneg hokar
          rw [height_node] at hc2 hlh hbl0 hlln
          simp only [rotateRight, height_node, height_nil, heightsOK_node,
            balancedOK_node, Bool.and_eq_true, decide_eq_true_eq]
          and_intros <;> first | assumption | trivial | omega | simp
  · rw [if_neg hc1]
    by_cases hc3 : height r - height l > 1
    · rw [if_pos hc3]
      have hlr2 : height r = height l + 2 := by omega
      cases r with
      | nil => rw [height_nil] at hlr2; omega
      | node rk rv rl rr rh2 =>
        rw [heightsOK_node, Bool.and_eq_true, Bool.and_eq_true, decide_eq_true_eq] at hr
        rw [balancedOK_node, Bool.and_eq_true, Bool.and_eq_true, decide_eq_true_eq] at br
        obtain ⟨⟨hrh, hokrl⟩, hokrr⟩ := hr
        obtain ⟨⟨hbr0, hbalrl⟩, hbalrr⟩ := br
        have hrln := height_nonneg hokrl
        have hrrn := height_nonneg hokrr
        rw [height_node] at hlr2 hc3 hd hRnn hc1
        by_cases hc4 : balanceFactor (.node rk rv rl rr rh2) < 0
        · rw [if_pos hc4]
          rw [balanceFactor_node] at hc4
          cases rl with
          | nil => rw [height_nil] at hc4 hrln; omega
          | node ck cv cl cr ch =>
            rw [heightsOK_node, Bool.and_eq_true, Bool.and_eq_true,
              decide_eq_true_eq] at hokrl
            rw [balancedOK_node, Bool.and_eq_true, Bool.and_eq_true,
              decide_eq_true_eq] at hbalrl
            obtain ⟨⟨hch, hokcl⟩, hokcr⟩ := hokrl
            obtain ⟨⟨hbc, hbalcl⟩, hbalcr⟩ := hbalrl
            have hcln := height_nonneg hokcl
            have hcrn := height_nonneg hokcr
            rw [height_node] at hc4 hrh hbr0 hrln
            simp only [rotateLeft, rotateRight, height_node, height_nil, heightsOK_node,
              balancedOK_node, Bool.and_eq_true, decide_eq_true_eq]
            and_intros <;> first | assumption | trivial | omega | simp
        · rw [if_neg hc4]
          rw [balanceFactor_node] at hc4
          cases rr with
          | nil =>
              rw [height_nil] at hc4 hrh hbr0 hrrn
              omega
          | node ak av al ar ah =>
            rw [heightsOK_node, Bool.and_eq_true, Bool.and_eq_true,
              decide_eq_true_eq] at hokrr
            rw [balancedOK_node, Bool.and_eq_true, Bool.and_eq_true,
              decide_eq_true_eq] at hbalrr
            obtain ⟨⟨hah, hokal⟩, hokar⟩ := hokrr
            obtain ⟨⟨hba, hbalal⟩, hbalar⟩ := hbalrr
            have haln := height_nonneg hokal
            have harn := height_nonneg hokar
            rw [height_node] at hc4 hrh hbr0 hrrn
            simp only [rotateLeft, height_node, height_nil, heightsOK_node,
              balancedOK_node, Bool.and_eq_true, decide_eq_true_eq]
            and_intros <;> first | assumption | trivial | omega | simp
    · rw [if_neg hc3]
      simp only [heightsOK_node, balancedOK_node, height_node, Bool.and_eq_true,
        decide_eq_true_eq]
      and_intros <;> first | assumption | trivial | omega | simp

/-! BST preservation under rotations and `rebalance`. -/

theorem bst_rotateLeft {t : AVLNode} (ht : isBST t = true) :
    isBST (rotateLeft t) = true := by
  cases t with
  | nil => exact ht
  | node k v l r h =>
      cases r with
      | nil => exact ht
      | node rk rv rl rr rh =>
          simp only [rotateLeft, isBST_node, allKeys_node, Bool.and_eq_true,
            decide_eq_true_eq] at ht ⊢
          obtain ⟨⟨⟨al, ⟨⟨hkrk, arl⟩, arr⟩⟩, bl⟩, ⟨⟨⟨crl, crr⟩, brl⟩, brr⟩⟩ := ht
          and_intros <;> first
            | assumption
            | exact allKeys_mono (fun x hx => by
                simp only [decide_eq_true_eq] at hx ⊢; omega) al

theorem bst_rotateRight {t : AVLNode} (ht : isBST t = true) :
    isBST (rotateRight t) = true := by
  cases t with
  | nil => exact ht
  | node k v l r h =>
      cases l with
      | nil => exact ht
      | node lk lv ll lr lh =>
          simp only [rotateRight, isBST_node, allKeys_node, Bool.and_eq_true,
            decide_eq_true_eq] at ht ⊢
          obtain ⟨⟨⟨⟨⟨hlkk, all2⟩, alr⟩, ar⟩, ⟨⟨⟨cll, clr⟩, bll⟩, blr⟩⟩, br⟩ := ht
          and_intros <;> first
            | assumption
            | exact allKeys_mono (fun x hx => by
                simp only [decide_eq_true_eq] at hx ⊢; omega) ar

theorem rebalance_bst (k v : Int) (l r : AVLNode) (h : Int)
    (al : allKeys (fun x => decide (x < k)) l = true)
    (ar : allKeys (fun x => decide (k < x)) r = true)
    (bl : isBST l = true) (br : isBST r = true) :
    isBST (rebalance (.node k v l r h)) = true := by
  simp only [rebalance]
  by_cases hc1 : height r - height l < -1
  · rw [if_pos hc1]
    by_cases hc2 : balanceFactor l > 0
    · rw [if_pos hc2]
      exact bst_rotateRight (by
        simp only [isBST_node, Bool.and_eq_true]
        exact ⟨⟨⟨by rw [rotateLeft_allKeys]; exact al, ar⟩, bst_rotateLeft bl⟩, br⟩)
    · rw [if_neg hc2]
      exact bst_rotateRight (by
        simp only [isBST_node, Bool.and_eq_true]
        exact ⟨⟨⟨al, ar⟩, bl⟩, br⟩)
  · rw [if_neg hc1]
    by_cases hc3 : height r - height l > 1
    · rw [if_pos hc3]
      by_cases hc4 : balanceFactor r < 0
      · rw [if_pos hc4]
        exact bst_rotateLeft (by
          simp only [isBST_node, Bool.and_eq_true]
          exact ⟨⟨⟨al, by rw [rotateRight_allKeys]; exact ar⟩, bl⟩, bst_rotateRight br⟩)
      · rw [if_neg hc4]
        exact bst_rotateLeft (by
          simp only [isBST_node, Bool.and_eq_true]
          exact ⟨⟨⟨al, ar⟩, bl⟩, br⟩)
    · rw [if_neg hc3]
      simp only [isBST_node, Bool.and_eq_true]
      exact ⟨⟨⟨al, ar⟩, bl⟩, br⟩

/-! `insertRec` and `allKeys`. -/

theorem insert_allKeys {p : Int → Bool} {k : Int} (v : Int) :
    ∀ {t : AVLNode}, allKeys p t = true → p k = true →
      allKeys p (insertRec t k v).1 = true := by
  intro t
  induction t with
  | nil =>
      intro _ hk
      simp [insertRec, allKeys_node, allKeys, hk]
  | node kk vv l r h ihl ihr =>
      intro ht hk
      simp only [allKeys_node, Bool.and_eq_true] at ht
      obtain ⟨⟨h1, h2⟩, h3⟩ := ht
      by_cases hlt : k < kk
      · simp only [insertRec, if_pos hlt, rebalance_allKeys, allKeys_node,
          Bool.and_eq_true]
        exact ⟨⟨h1, ihl h2 hk⟩, h3⟩
      · by_cases hgt : kk < k
        · simp only [insertRec, if_neg hlt, if_pos hgt, rebalance_allKeys,
            allKeys_node, Bool.and_eq_true]
          exact ⟨⟨h1, h2⟩, ihr h3 hk⟩
        · simp only [insertRec, if_neg hlt, if_neg hgt, allKeys_node,
            Bool.and_eq_true]
          exact ⟨⟨h1, h2⟩, h3⟩

/-! `containsRec` against `memK`. -/

theorem memK_of_contains {x : Int} :
    ∀ {t : AVLNode}, containsRec t x = true → memK x t = true := by
  intro t
  induction t with
  | nil => simp [containsRec, memK]
  | node k v l r h ihl ihr =>
      intro ht
      simp only [containsRec] at ht
      simp only [memK_node, Bool.or_eq_true]
      by_cases hxk : x == k
      · exact Or.inl (Or.inl hxk)
      · rw [if_neg hxk] at ht
        by_cases hlt : x < k
        · rw [if_pos hlt] at ht
          exact Or.inl (Or.inr (ihl ht))
        · rw [if_neg hlt] at ht
          exact Or.inr (ihr ht)

theorem contains_of_memK {x : Int} :
    ∀ {t : AVLNode}, isBST t = true → memK x t = true → containsRec t x = true := by
  intro t
  induction t with
  | nil => simp [memK]
  | node k v l r h ihl ihr =>
      intro hb hm
      simp only [isBST_node, Bool.and_eq_true] at hb
      obtain ⟨⟨⟨al, ar⟩, bl⟩, br⟩ := hb
      simp only [memK_node, Bool.or_eq_true, beq_iff_eq] at hm
      simp only [containsRec]
      rcases hm with (rfl | hm) | hm
      · simp
      · have hxk : x < k := by
          have := allKeys_mem al hm
          simpa using this
        rw [if_neg (by simp only [beq_iff_eq]; omega), if_pos hxk]
        exact ihl bl hm
      · have hxk : k < x := by
          have := allKeys_mem ar hm
          simpa using this
        rw [if_neg (by simp only [beq_iff_eq]; omega), if_neg (by omega)]
        exact ihr br hm

/-! `findMin`: shape, membership, minimality. -/

theorem findMin_shape :
    ∀ (t : AVLNode), t ≠ .nil → ∃ sk sv sr sh, findMin t = .node sk sv .nil sr sh := by
  intro t
  induction t with
  | nil => intro hc; exact absurd rfl hc
  | node k v l r h ihl ihr =>
      intro _
      cases l with
      | nil => exact ⟨k, v, r, h, rfl⟩
      | node lk lv ll lr lh =>
          obtain ⟨sk, sv, sr, sh, hm⟩ := ihl (by simp)
          exact ⟨sk, sv, sr, sh, by rw [findMin]; exact hm⟩

theorem findMin_mem {sk sv sh : Int} {sr : AVLNode} :
    ∀ {t : AVLNode}, findMin t = .node sk sv .nil sr sh →
      memK sk t = true ∧ memVal sk sv t = true := by
  intro t
  induction t with
  | nil => intro hc; simp [findMin] at hc
  | node k v l r h ihl ihr =>
      intro hm
      cases l with
      | nil =>
          rw [findMin] at hm
          injection hm with h1 h2 h3 h4 h5
          subst h1; subst h2
          simp [memK_node, memVal_node]
      | node lk lv ll lr lh =>
          rw [findMin] at hm
          obtain ⟨m1, m2⟩ := ihl hm
          constructor
          · simp [memK_node, m1]
          · simp [memVal_node, m2]

theorem findMin_le {sk sv sh : Int} {sr : AVLNode} :
    ∀ {t : AVLNode}, isBST t = true → findMin t = .node sk sv .nil sr sh →
      ∀ x, memK x t = true → sk ≤ x := by
  intro t
  induction t with
  | nil => intro _ hc; simp [findMin] at hc
  | node k v l r h ihl ihr =>
      intro hb hm x hx
      simp only [isBST_node, Bool.and_eq_true] at hb
      obtain ⟨⟨⟨al, ar⟩, bl⟩, br⟩ := hb
      simp only [memK_node, Bool.or_eq_true, beq_iff_eq] at hx
      cases l with
      | nil =>
          rw [findMin] at hm
          injection hm with h1 h2 h3 h4 h5
          subst h1
          rcases hx with (rfl | hx) | hx
          · exact le_refl x
          · simp [memK] at hx
          · have := allKeys_mem ar hx
            simp only [decide_eq_true_eq] at this
            omega
      | node lk lv ll lr lh =>
          rw [findMin] at hm
          have hskl : memK sk (.node lk lv ll lr lh) = true := (findMin_mem hm).1
          have hskk : sk < k := by
            have := allKeys_mem al hskl
            simpa using this
          rcases hx with (rfl | hx) | hx
          · omega
          · exact ihl bl hm x hx
          · have := allKeys_mem ar hx
            simp only [decide_eq_true_eq] at this
            omega

/-- Master lemma for insertion: `insertRec` preserves the BST, stored-height
and balance invariants, and changes the tree height by at most one. -/
theorem insert_sound (k v : Int) :
    ∀ (t : AVLNode), isBST t = true → heightsOK t = true → balancedOK t = true →
      (isBST (insertRec t k v).1 = true ∧ heightsOK (insertRec t k v).1 = true ∧
       balancedOK (insertRec t k v).1 = true) ∧
      (height (insertRec t k v).1 - height t).natAbs ≤ 1 := by
  intro t
  induction t with
  | nil =>
      intro _ _ _
      refine ⟨⟨?_, ?_, ?_⟩, ?_⟩ <;>
        simp [insertRec, isBST_node, heightsOK_node, balancedOK_node, allKeys,
          isBST, heightsOK, balancedOK, height]
  | node kk vv l r h ihl ihr =>
      intro hb hh hbal
      simp only [isBST_node, heightsOK_node, balancedOK_node, Bool.and_eq_true,
        decide_eq_true_eq] at hb hh hbal
      obtain ⟨⟨⟨al, ar⟩, bstl⟩, bstr⟩ := hb
      obtain ⟨⟨hhv, hokl⟩, hokr⟩ := hh
      obtain ⟨⟨hbv, hball⟩, hbalr⟩ := hbal
      have hLnn := height_nonneg hokl
      have hRnn := height_nonneg hokr
      by_cases hlt : k < kk
      · obtain ⟨⟨ihbst, ihhok, ihbal⟩, ihh⟩ := ihl bstl hokl hball
        simp only [insertRec, if_pos hlt]
        set l2 := (insertRec l k v).1 with hl2
        have hd2 : (height r - height l2).natAbs ≤ 2 := by omega
        obtain ⟨rh1, rh2, rh3, rh4⟩ :=
          rebalance_hok_bal kk vv l2 r h ihhok hokr ihbal hbalr hd2
        have hbst2 : isBST (rebalance (.node kk vv l2 r h)) = true :=
          rebalance_bst kk vv l2 r h
            (insert_allKeys v al (by simp only [decide_eq_true_eq]; omega)) ar ihbst bstr
        refine ⟨⟨hbst2, rh1, rh2⟩, ?_⟩
        simp only [height_node]
        by_cases hsm : (height r - height l2).natAbs ≤ 1
        · have := rh4 hsm
          omega
        · rcases rh3 with he | he <;> omega
      · by_cases hgt : kk < k
        · obtain ⟨⟨ihbst, ihhok, ihbal⟩, ihh⟩ := ihr bstr hokr hbalr
          simp only [insertRec, if_neg hlt, if_pos hgt]
          set r2 := (insertRec r k v).1 with hr2
          have hd2 : (height r2 - height l).natAbs ≤ 2 := by omega
          obtain ⟨rh1, rh2, rh3, rh4⟩ :=
            rebalance_hok_bal kk vv l r2 h hokl ihhok hball ihbal hd2
          have hbst2 : isBST (rebalance (.node kk vv l r2 h)) = true :=
            rebalance_bst kk vv l r2 h al
              (insert_allKeys v ar (by simp only [decide_eq_true_eq]; omega)) bstl ihbst
          refine ⟨⟨hbst2, rh1, rh2⟩, ?_⟩
          simp only [height_node]
          by_cases hsm : (height r2 - height l).natAbs ≤ 1
          · have := rh4 hsm
            omega
          · rcases rh3 with he | he <;> omega
        · simp only [insertRec, if_neg hlt, if_neg hgt]
          refine ⟨⟨?_, ?_, ?_⟩, ?_⟩
          · simp only [isBST_node, Bool.and_eq_true]
            exact ⟨⟨⟨al, ar⟩, bstl⟩, bstr⟩
          · simp only [heightsOK_node, Bool.and_eq_true, decide_eq_true_eq]
            exact ⟨⟨hhv, hokl⟩, hokr⟩
          · simp only [balancedOK_node, Bool.and_eq_true, decide_eq_true_eq]
            exact ⟨⟨hbv, hball⟩, hbalr⟩
          · simp only [height_node]
            omega

theorem memK_nil (x : Int) : memK x .nil = false := rfl

theorem memK_node_iff (x k v : Int) (l r : AVLNode) (h : Int) :
    memK x (.node k v l r h) = true ↔
      (x = k ∨ memK x l = true ∨ memK x r = true) := by
  simp only [memK_node, Bool.or_eq_true, beq_iff_eq, or_assoc]

theorem pair_fst {A B : Type} (a : A) (b : B) : (a, b).1 = a := rfl

theorem pair_snd {A B : Type} (a : A) (b : B) : (a, b).2 = b := rfl

theorem removeRec_eq_lt {k v : Int} {l r : AVLNode} {h key : Int} (hlt : key < k) :
    removeRec (.node k v l r h) key =
      (rebalance (.node k v (removeRec l key).1 r h), (removeRec l key).2) := by
  rw [removeRec.eq_def]
  simp only [if_pos hlt]

theorem removeRec_eq_gt {k v : Int} {l r : AVLNode} {h key : Int}
    (h1 : ¬ key < k) (h2 : k < key) :
    removeRec (.node k v l r h) key =
      (rebalance (.node k v l (removeRec r key).1 h), (removeRec r key).2) := by
  rw [removeRec.eq_def]
  simp only [if_neg h1, if_pos h2]

theorem removeRec_eq_lnil {k v : Int} {r : AVLNode} {h key : Int}
    (h1 : ¬ key < k) (h2 : ¬ k < key) :
    removeRec (.node k v .nil r h) key = (r, true) := by
  rw [removeRec.eq_def]
  simp only [if_neg h1, if_neg h2]

theorem removeRec_eq_rnil {k v lk lv : Int} {ll lr : AVLNode} {lh h key : Int}
    (h1 : ¬ key < k) (h2 : ¬ k < key) :
    removeRec (.node k v (.node lk lv ll lr lh) .nil h) key =
      (.node lk lv ll lr lh, true) := by
  rw [removeRec.eq_def]
  simp only [if_neg h1, if_neg h2]

theorem removeRec_eq_two {k v lk lv : Int} {ll lr : AVLNode} {lh : Int}
    {rk rv : Int} {rl rr : AVLNode} {rh h key : Int}
    {sk sv : Int} {sr : AVLNode} {sh : Int}
    (h1 : ¬ key < k) (h2 : ¬ k < key)
    (hfm : findMin (.node rk rv rl rr rh) = .node sk sv .nil sr sh) :
    removeRec (.node k v (.node lk lv ll lr lh) (.node rk rv rl rr rh) h) key =
      (rebalance (.node sk sv (.node lk lv ll lr lh)
          (removeRec (.node rk rv rl rr rh) sk).1 h),
       (removeRec (.node rk rv rl rr rh) sk).2) := by
  rw [removeRec.eq_def]
  simp only [if_neg h1, if_neg h2, hfm]

/-- Master lemma for removal: `removeRec` preserves the BST, stored-height and
balance invariants, changes the height by at most one, returns exactly the
`containsRec` verdict in its flag, and removes exactly the requested key. -/
theorem remove_sound :
    ∀ (t : AVLNode) (y : Int), isBST t = true → heightsOK t = true → balancedOK t = true →
      (isBST (removeRec t y).1 = true ∧ heightsOK (removeRec t y).1 = true ∧
       balancedOK (removeRec t y).1 = true) ∧
      (height t - height (removeRec t y).1).natAbs ≤ 1 ∧
      (removeRec t y).2 = containsRec t y ∧
      (∀ x, memK x (removeRec t y).1 = true ↔ (memK x t = true ∧ x ≠ y)) := by
  intro t
  induction t with
  | nil =>
      intro y _ _ _
      refine ⟨⟨by simp [removeRec, isBST], by simp [removeRec, heightsOK],
        by simp [removeRec, balancedOK]⟩, by simp [removeRec, height],
        by simp [removeRec, containsRec], fun x => by simp [removeRec, memK]⟩
  | node k v l r h ihl ihr =>
      intro y hb hh hbal
      simp only [isBST_node, heightsOK_node, balancedOK_node, Bool.and_eq_true,
        decide_eq_true_eq] at hb hh hbal
      obtain ⟨⟨⟨al, ar⟩, bstl⟩, bstr⟩ := hb
      obtain ⟨⟨hhv, hokl⟩, hokr⟩ := hh
      obtain ⟨⟨hbv, hball⟩, hbalr⟩ := hbal
      have hLnn := height_nonneg hokl
      have hRnn := height_nonneg hokr
      by_cases hlt : y < k
      · obtain ⟨⟨ihbst, ihhok, ihbal⟩, ihh, ihflag, ihmem⟩ := ihl y bstl hokl hball
        rw [removeRec_eq_lt hlt]
        set l2 := (removeRec l y).1 with hl2def
        have hd2 : (height r - height l2).natAbs ≤ 2 := by omega
        obtain ⟨rh1, rh2, rh3, rh4⟩ :=
          rebalance_hok_bal k v l2 r h ihhok hokr ihbal hbalr hd2
        have al2 : allKeys (fun x => decide (x < k)) l2 = true :=
          memK_of_allKeys_intro fun x hx => by
            have hxl : memK x l = true := ((ihmem x).1 hx).1
            exact allKeys_mem al hxl
        refine ⟨⟨rebalance_bst k v l2 r h al2 ar ihbst bstr, rh1, rh2⟩, ?_, ?_, ?_⟩
        · simp only [height_node]
          by_cases hsm : (height r - height l2).natAbs ≤ 1
          · have := rh4 hsm
            omega
          · rcases rh3 with he | he <;> omega
        · have hyk : ¬(y == k) = true := by simp only [beq_iff_eq]; omega
          simp only [containsRec, if_neg hyk, if_pos hlt]
          exact ihflag
        · intro x
          rw [rebalance_memK, memK_node_iff x k, memK_node_iff x k]
          constructor
          · rintro (rfl | hx | hx)
            · exact ⟨Or.inl rfl, by omega⟩
            · obtain ⟨hxl, hxy⟩ := (ihmem x).1 hx
              exact ⟨Or.inr (Or.inl hxl), hxy⟩
            · have := allKeys_mem ar hx
              simp only [decide_eq_true_eq] at this
              exact ⟨Or.inr (Or.inr hx), by omega⟩
          · rintro ⟨rfl | hx | hx, hxy⟩
            · exact Or.inl rfl
            · exact Or.inr (Or.inl ((ihmem x).2 ⟨hx, hxy⟩))
            · exact Or.inr (Or.inr hx)
      · by_cases hgt : k < y
        · obtain ⟨⟨ihbst, ihhok, ihbal⟩, ihh, ihflag, ihmem⟩ := ihr y bstr hokr hbalr
          rw [removeRec_eq_gt hlt hgt]
          set r2 := (removeRec r y).1 with hr2def
          have hd2 : (height r2 - height l).natAbs ≤ 2 := by omega
          obtain ⟨rh1, rh2, rh3, rh4⟩ :=
            rebalance_hok_bal k v l r2 h hokl ihhok hball ihbal hd2
          have ar2 : allKeys (fun x => decide (k < x)) r2 = true :=
            memK_of_allKeys_intro fun x hx => by
              have hxr : memK x r = true := ((ihmem x).1 hx).1
              exact allKeys_mem ar hxr
          refine ⟨⟨rebalance_bst k v l r2 h al ar2 bstl ihbst, rh1, rh2⟩, ?_, ?_, ?_⟩
          · simp only [height_node]
            by_cases hsm : (height r2 - height l).natAbs ≤ 1
            · have := rh4 hsm
              omega
            · rcases rh3 with he | he <;> omega
          · have hyk : ¬(y == k) = true := by simp only [beq_iff_eq]; omega
            simp only [containsRec, if_neg hyk, if_neg hlt]
            exact ihflag
          · intro x
            rw [rebalance_memK, memK_node_iff x k, memK_node_iff x k]
            constructor
            · rintro (rfl | hx | hx)
              · exact ⟨Or.inl rfl, by omega⟩
              · have := allKeys_mem al hx
                simp only [decide_eq_true_eq] at this
                exact ⟨Or.inr (Or.inl hx), by omega⟩
              · obtain ⟨hxr, hxy⟩ := (ihmem x).1 hx
                exact ⟨Or.inr (Or.inr hxr), hxy⟩
            · rintro ⟨rfl | hx | hx, hxy⟩
              · exact Or.inl rfl
              · exact Or.inr (Or.inl hx)
              · exact Or.inr (Or.inr ((ihmem x).2 ⟨hx, hxy⟩))
        · have hyk : y = k := by omega
          cases l with
          | nil =>
              rw [removeRec_eq_lnil hlt hgt]
              refine ⟨⟨bstr, hokr, hbalr⟩, ?_, ?_, ?_⟩
              · rw [height_nil] at hhv
                simp only [pair_fst]
                rw [height_node]
                omega
              · have hyk2 : (y == k) = true := by simp only [beq_iff_eq]; omega
                simp [containsRec, hyk2]
              · intro x
                rw [memK_node_iff x k]
                simp only [memK_nil, Bool.false_eq_true, false_or]
                constructor
                · intro hx
                  have := allKeys_mem ar hx
                  simp only [decide_eq_true_eq] at this
                  exact ⟨Or.inr hx, by omega⟩
                · rintro ⟨rfl | hx, hxy⟩
                  · omega
                  · exact hx
          | node lk lv ll lr lh =>
              cases r with
              | nil =>
                  rw [removeRec_eq_rnil hlt hgt]
                  refine ⟨⟨bstl, hokl, hball⟩, ?_, ?_, ?_⟩
                  · rw [height_nil] at hhv
                    simp only [pair_fst]
                    rw [height_node]
                    omega
                  · have hyk2 : (y == k) = true := by simp only [beq_iff_eq]; omega
                    simp [containsRec, hyk2]
                  · intro x
                    rw [memK_node_iff x k]
                    simp only [memK_nil, Bool.false_eq_true, or_false]
                    constructor
                    · intro hx
                      have := allKeys_mem al hx
                      simp only [decide_eq_true_eq] at this
                      exact ⟨Or.inr hx, by omega⟩
                    · rintro ⟨rfl | hx, hxy⟩
                      · omega
                      · exact hx
              | node rk rv rl rr rh2 =>
                  obtain ⟨sk, sv, sr, sh, hfm⟩ :=
                    findMin_shape (.node rk rv rl rr rh2) (by simp)
                  have hskm := findMin_mem hfm
                  have hksk : k < sk := by
                    have := allKeys_mem ar hskm.1
                    simpa using this
                  have hmin := findMin_le bstr hfm
                  obtain ⟨⟨i1, i2, i3⟩, ih4, ih5, ih6⟩ := ihr sk bstr hokr hbalr
                  have hflag2 : (removeRec (.node rk rv rl rr rh2) sk).2 = true := by
                    rw [ih5]
                    exact contains_of_memK bstr hskm.1
                  rw [removeRec_eq_two hlt hgt hfm]
                  simp only [pair_fst, pair_snd]
                  set r2 := (removeRec (.node rk rv rl rr rh2) sk).1 with hr2def
                  have hd2 :
                      (height r2 - height (AVLNode.node lk lv ll lr lh)).natAbs ≤ 2 := by
                    omega
                  obtain ⟨rh1, rh2, rh3, rh4⟩ :=
                    rebalance_hok_bal sk sv (.node lk lv ll lr lh) r2 h hokl i2 hball i3 hd2
                  have alsk :
                      allKeys (fun x => decide (x < sk)) (.node lk lv ll lr lh) = true :=
                    allKeys_mono (fun x hx => by
                      simp only [decide_eq_true_eq] at hx ⊢; omega) al
                  have arsk : allKeys (fun x => decide (sk < x)) r2 = true :=
                    memK_of_allKeys_intro fun x hx => by
                      obtain ⟨hxr, hxsk⟩ := (ih6 x).1 hx
                      have := hmin x hxr
                      simp only [decide_eq_true_eq]
                      omega
                  refine ⟨⟨rebalance_bst sk sv (.node lk lv ll lr lh) r2 h alsk arsk bstl i1,
                    rh1, rh2⟩, ?_, ?_, ?_⟩
                  · rw [height_node]
                    by_cases hsm :
                        (height r2 - height (AVLNode.node lk lv ll lr lh)).natAbs ≤ 1
                    · have := rh4 hsm
                      omega
                    · rcases rh3 with he | he <;> omega
                  · rw [hflag2]
                    have hyk2 : (y == k) = true := by simp only [beq_iff_eq]; omega
                    simp [containsRec, hyk2]
                  · intro x
                    rw [rebalance_memK, memK_node_iff x sk, memK_node_iff x k]
                    constructor
                    · rintro (rfl | hx | hx)
                      · exact ⟨Or.inr (Or.inr hskm.1), by omega⟩
                      · have := allKeys_mem al hx
                        simp only [decide_eq_true_eq] at this
                        exact ⟨Or.inr (Or.inl hx), by omega⟩
                      · obtain ⟨hxr, hxsk⟩ := (ih6 x).1 hx
                        have := allKeys_mem ar hxr
                        simp only [decide_eq_true_eq] at this
                        exact ⟨Or.inr (Or.inr hxr), by omega⟩
                    · rintro ⟨rfl | hx | hx, hxy⟩
                      · omega
                      · exact Or.inr (Or.inl hx)
                      · by_cases hxsk : x = sk
                        · exact Or.inl hxsk
                        · exact Or.inr (Or.inr ((ih6 x).2 ⟨hx, hxsk⟩))

/-! Value-level characterizations. -/

theorem memVal_node_iff (x w k v : Int) (l r : AVLNode) (h : Int) :
    memVal x w (.node k v l r h) = true ↔
      ((x = k ∧ w = v) ∨ memVal x w l = true ∨ memVal x w r = true) := by
  simp only [memVal_node, Bool.or_eq_true, Bool.and_eq_true, beq_iff_eq, or_assoc]

theorem memVal_unique {x w w' : Int} :
    ∀ {t : AVLNode}, isBST t = true → memVal x w t = true → memVal x w' t = true →
      w = w' := by
  intro t
  induction t with
  | nil => simp [memVal]
  | node k v l r h ihl ihr =>
      intro hb h1 h2
      simp only [isBST_node, Bool.and_eq_true] at hb
      obtain ⟨⟨⟨al, ar⟩, bl⟩, br⟩ := hb
      rw [memVal_node_iff] at h1 h2
      have hkl : ∀ {u : Int}, memVal x u l = true → x < k := fun hu => by
        have := allKeys_mem al (memVal_memK hu)
        simpa using this
      have hkr : ∀ {u : Int}, memVal x u r = true → k < x := fun hu => by
        have := allKeys_mem ar (memVal_memK hu)
        simpa using this
      rcases h1 with ⟨rfl, rfl⟩ | h1 | h1 <;> rcases h2 with ⟨he, rfl⟩ | h2 | h2
      · rfl
      · exact absurd (hkl h2) (by omega)
      · exact absurd (hkr h2) (by omega)
      · exact absurd (hkl h1) (by omega)
      · exact ihl bl h1 h2
      · exact absurd (hkl h1) (by have := hkr h2; omega)
      · exact absurd (hkr h1) (by omega)
      · exact absurd (hkr h1) (by have := hkl h2; omega)
      · exact ihr br h1 h2

theorem getRec_notFound_iff {x : Int} :
    ∀ {t : AVLNode}, getRec t x = .error .notFound ↔ containsRec t x = false := by
  intro t
  induction t with
  | nil => simp [getRec, containsRec]
  | node k v l r h ihl ihr =>
      simp only [getRec, containsRec]
      by_cases hxk : (x == k) = true
      · simp [hxk]
      · rw [if_neg hxk, if_neg hxk]
        by_cases hlt : x < k
        · rw [if_pos hlt, if_pos hlt]
          exact ihl
        · rw [if_neg hlt, if_neg hlt]
          exact ihr

theorem getRec_ok_iff {x w : Int} :
    ∀ {t : AVLNode}, isBST t = true →
      (getRec t x = .ok w ↔ memVal x w t = true) := by
  intro t
  induction t with
  | nil => simp [getRec, memVal]
  | node k v l r h ihl ihr =>
      intro hb
      simp only [isBST_node, Bool.and_eq_true] at hb
      obtain ⟨⟨⟨al, ar⟩, bl⟩, br⟩ := hb
      rw [memVal_node_iff]
      simp only [getRec]
      by_cases hxk : (x == k) = true
      · rw [if_pos hxk]
        simp only [beq_iff_eq] at hxk
        subst hxk
        constructor
        · rintro he
          injection he with he
          exact Or.inl ⟨rfl, he.symm⟩
        · rintro (⟨_, rfl⟩ | hm | hm)
          · rfl
          · have := allKeys_mem al (memVal_memK hm)
            simp only [decide_eq_true_eq] at this
            omega
          · have := allKeys_mem ar (memVal_memK hm)
            simp only [decide_eq_true_eq] at this
            omega
      · rw [if_neg hxk]
        simp only [beq_iff_eq] at hxk
        by_cases hlt : x < k
        · rw [if_pos hlt]
          rw [ihl bl]
          constructor
          · exact fun hm => Or.inr (Or.inl hm)
          · rintro (⟨rfl, _⟩ | hm | hm)
            · omega
            · exact hm
            · have := allKeys_mem ar (memVal_memK hm)
              simp only [decide_eq_true_eq] at this
              omega
        · rw [if_neg hlt]
          rw [ihr br]
          constructor
          · exact fun hm => Or.inr (Or.inr hm)
          · rintro (⟨rfl, _⟩ | hm | hm)
            · omega
            · have := allKeys_mem al (memVal_memK hm)
              simp only [decide_eq_true_eq] at this
              omega
            · exact hm

/-- Removal preserves every entry except the removed key (value-level version
of the membership clause of `remove_sound`). -/
theorem remove_memVal :
    ∀ (t : AVLNode) (y : Int), isBST t = true →
      ∀ x w, memVal x w (removeRec t y).1 = true ↔
        (memVal x w t = true ∧ x ≠ y) := by
  intro t
  induction t with
  | nil =>
      intro y _ x w
      simp [removeRec, memVal]
  | node k v l r h ihl ihr =>
      intro y hb x w
      simp only [isBST_node, Bool.and_eq_true] at hb
      obtain ⟨⟨⟨al, ar⟩, bstl⟩, bstr⟩ := hb
      have hmvl : ∀ {u : Int}, memVal x u l = true → x < k := fun hu => by
        have := allKeys_mem al (memVal_memK hu)
        simpa using this
      have hmvr : ∀ {u : Int}, memVal x u r = true → k < x := fun hu => by
        have := allKeys_mem ar (memVal_memK hu)
        simpa using this
      by_cases hlt : y < k
      · rw [removeRec_eq_lt hlt]
        simp only [pair_fst]
        rw [rebalance_memVal, memVal_node_iff x w k, memVal_node_iff x w k]
        constructor
        · rintro (⟨rfl, rfl⟩ | hx | hx)
          · exact ⟨Or.inl ⟨rfl, rfl⟩, by omega⟩
          · obtain ⟨hxl, hxy⟩ := (ihl y bstl x w).1 hx
            exact ⟨Or.inr (Or.inl hxl), hxy⟩
          · exact ⟨Or.inr (Or.inr hx), by have := hmvr hx; omega⟩
        · rintro ⟨⟨rfl, rfl⟩ | hx | hx, hxy⟩
          · exact Or.inl ⟨rfl, rfl⟩
          · exact Or.inr (Or.inl ((ihl y bstl x w).2 ⟨hx, hxy⟩))
          · exact Or.inr (Or.inr hx)
      · by_cases hgt : k < y
        · rw [removeRec_eq_gt hlt hgt]
          simp only [pair_fst]
          rw [rebalance_memVal, memVal_node_iff x w k, memVal_node_iff x w k]
          constructor
          · rintro (⟨rfl, rfl⟩ | hx | hx)
            · exact ⟨Or.inl ⟨rfl, rfl⟩, by omega⟩
            · exact ⟨Or.inr (Or.inl hx), by have := hmvl hx; omega⟩
            · obtain ⟨hxr, hxy⟩ := (ihr y bstr x w).1 hx
              exact ⟨Or.inr (Or.inr hxr), hxy⟩
          · rintro ⟨⟨rfl, rfl⟩ | hx | hx, hxy⟩
            · exact Or.inl ⟨rfl, rfl⟩
            · exact Or.inr (Or.inl hx)
            · exact Or.inr (Or.inr ((ihr y bstr x w).2 ⟨hx, hxy⟩))
        · have hyk : y = k := by omega
          cases l with
          | nil =>
              rw [removeRec_eq_lnil hlt hgt]
              simp only [pair_fst]
              rw [memVal_node_iff x w k]
              constructor
              · intro hx
                exact ⟨Or.inr (Or.inr hx), by have := hmvr hx; omega⟩
              · rintro ⟨⟨rfl, rfl⟩ | hx | hx, hxy⟩
                · omega
                · exact absurd hx (by simp [memVal])
                · exact hx
          | node lk lv ll lr lh =>
              cases r with
              | nil =>
                  rw [removeRec_eq_rnil hlt hgt]
                  simp only [pair_fst]
                  rw [memVal_node_iff x w k]
                  constructor
                  · intro hx
                    exact ⟨Or.inr (Or.inl hx), by have := hmvl hx; omega⟩
                  · rintro ⟨⟨rfl, rfl⟩ | hx | hx, hxy⟩
                    · omega
                    · exact hx
                    · exact absurd hx (by simp [memVal])
              | node rk rv rl rr rh2 =>
                  obtain ⟨sk, sv, sr, sh, hfm⟩ :=
                    findMin_shape (.node rk rv rl rr rh2) (by simp)
                  have hskm := findMin_mem hfm
                  have hksk : k < sk := by
                    have := allKeys_mem ar hskm.1
                    simpa using this
                  rw [removeRec_eq_two hlt hgt hfm]
                  simp only [pair_fst]
                  rw [rebalance_memVal, memVal_node_iff x w sk, memVal_node_iff x w k]
                  constructor
                  · rintro (⟨rfl, rfl⟩ | hx | hx)
                    · exact ⟨Or.inr (Or.inr hskm.2), by omega⟩
                    · exact ⟨Or.inr (Or.inl hx), by have := hmvl hx; omega⟩
                    · obtain ⟨hxr, hxsk⟩ := (ihr sk bstr x w).1 hx
                      exact ⟨Or.inr (Or.inr hxr), by have := hmvr hxr; omega⟩
                  · rintro ⟨⟨rfl, rfl⟩ | hx | hx, hxy⟩
                    · omega
                    · exact Or.inr (Or.inl hx)
                    · by_cases hxsk : x = sk
                      · subst hxsk
                        exact Or.inl ⟨rfl, memVal_unique bstr hx hskm.2⟩
                      · exact Or.inr (Or.inr ((ihr sk bstr x w).2 ⟨hx, hxsk⟩))

/-! `findMaxNode`: shape, membership, maximality (mirrors of the `findMin`
lemmas). -/

theorem findMax_shape :
    ∀ (t : AVLNode), t ≠ .nil → ∃ mk mv ml mh, findMaxNode t = .node mk mv ml .nil mh := by
  intro t
  induction t with
  | nil => intro hc; exact absurd rfl hc
  | node k v l r h ihl ihr =>
      intro _
      cases r with
      | nil => exact ⟨k, v, l, h, rfl⟩
      | node rk rv rl rr rh =>
          obtain ⟨mk, mv, ml, mh, hm⟩ := ihr (by simp)
          exact ⟨mk, mv, ml, mh, by rw [findMaxNode]; exact hm⟩

theorem findMax_mem {mk mv mh : Int} {ml : AVLNode} :
    ∀ {t : AVLNode}, findMaxNode t = .node mk mv ml .nil mh → memK mk t = true := by
  intro t
  induction t with
  | nil => intro hc; simp [findMaxNode] at hc
  | node k v l r h ihl ihr =>
      intro hm
      cases r with
      | nil =>
          rw [findMaxNode] at hm
          injection hm with h1 h2 h3 h4 h5
          subst h1
          simp [memK_node]
      | node rk rv rl rr rh =>
          rw [findMaxNode] at hm
          have := ihr hm
          simp [memK_node, this]

theorem findMax_ge {mk mv mh : Int} {ml : AVLNode} :
    ∀ {t : AVLNode}, isBST t = true → findMaxNode t = .node mk mv ml .nil mh →
      ∀ x, memK x t = true → x ≤ mk := by
  intro t
  induction t with
  | nil => intro _ hc; simp [findMaxNode] at hc
  | node k v l r h ihl ihr =>
      intro hb hm x hx
      simp only [isBST_node, Bool.and_eq_true] at hb
      obtain ⟨⟨⟨al, ar⟩, bl⟩, br⟩ := hb
      simp only [memK_node, Bool.or_eq_true, beq_iff_eq] at hx
      cases r with
      | nil =>
          rw [findMaxNode] at hm
          injection hm with h1 h2 h3 h4 h5
          subst h1
          rcases hx with (rfl | hx) | hx
          · exact le_refl x
          · have := allKeys_mem al hx
            simp only [decide_eq_true_eq] at this
            omega
          · simp [memK] at hx
      | node rk rv rl rr rh =>
          rw [findMaxNode] at hm
          have hmkr : memK mk (.node rk rv rl rr rh) = true := findMax_mem hm
          have hkmk : k < mk := by
            have := allKeys_mem ar hmkr
            simpa using this
          rcases hx with (rfl | hx) | hx
          · omega
          · have := allKeys_mem al hx
            simp only [decide_eq_true_eq] at this
            omega
          · exact ihr br hm x hx

theorem findMin_nil_iff : ∀ {t : AVLNode}, findMin t = .nil ↔ t = .nil := by
  intro t
  cases t with
  | nil => simp [findMin]
  | node k v l r h =>
      constructor
      · intro hc
        obtain ⟨sk, sv, sr, sh, hm⟩ := findMin_shape (.node k v l r h) (by simp)
        rw [hm] at hc
        exact absurd hc (by simp)
      · intro hc
        exact absurd hc (by simp)

theorem findMax_nil_iff : ∀ {t : AVLNode}, findMaxNode t = .nil ↔ t = .nil := by
  intro t
  cases t with
  | nil => simp [findMaxNode]
  | node k v l r h =>
      constructor
      · intro hc
        obtain ⟨mk, mv, ml, mh, hm⟩ := findMax_shape (.node k v l r h) (by simp)
        rw [hm] at hc
        exact absurd hc (by simp)
      · intro hc
        exact absurd hc (by simp)

/-!
The redirect index (`src/include/redirect_index.hpp`): an
`unordered_map<Key, size_t>` modelled as an association list with unique keys
(entries in insertion order; the statistics counters are observability-only
and omitted).
-/

/-- `redirects_[key] = actual`: insert-or-update of the unique entry for
`key`. -/
def RedirectIndex.update : List (Int × Nat) → Int → Nat → List (Int × Nat)
  | [], k, a => [(k, a)]
  | (k', a') :: rest, k, a =>
      if k = k' then (k, a) :: rest else (k', a') :: RedirectIndex.update rest k a

/-- `RedirectIndex::record_redirect` (lines 37-46): returns immediately when
`natural_shard == actual_shard`, otherwise installs/overwrites
`key → actual_shard`. -/
def RedirectIndex.record_redirect (m : List (Int × Nat)) (key : Int)
    (natural_shard actual_shard : Nat) : List (Int × Nat) :=
  if natural_shard = actual_shard then m
  else RedirectIndex.update m key actual_shard

/-- `RedirectIndex::lookup` (lines 49-61). -/
def RedirectIndex.lookup : List (Int × Nat) → Int → Option Nat
  | [], _ => none
  | (k', a') :: rest, k => if k = k' then some a' else RedirectIndex.lookup rest k

/-- `RedirectIndex::remove` (lines 64-67): erase the entry for `key`. -/
def RedirectIndex.remove : List (Int × Nat) → Int → List (Int × Nat)
  | [], _ => []
  | (k', a') :: rest, k =>
      if k = k' then rest else (k', a') :: RedirectIndex.remove rest k

/-- Modelled from the spec: `gc_expired(router_natural_fn)` is called by
`src/tests/gc_test.cpp` but is absent from `src/include/redirect_index.hpp`;
per spec §4.4 it "walks the index, removing entries where
`router_natural_fn(k) == actual` (diversion is no longer necessary); returns
number removed". -/
def RedirectIndex.gc_expired (f : Int → Nat) :
    List (Int × Nat) → List (Int × Nat) × Nat
  | [] => ([], 0)
  | (k, a) :: rest =>
      let p := RedirectIndex.gc_expired f rest
      if f k = a then (p.1, p.2 + 1) else ((k, a) :: p.1, p.2)

/-!
`DiccionarioAVL` (`src/diccAVL.cpp`).  The node's `padre` pointer is the
inverse of the child links and is represented implicitly by the recursion
(the upward `rebalancear` walk becomes the return path); the `balanceo` field
is a cache that `rebalancear` always recomputes via `definirBalanceo`/`largo`
before reading, so it is not part of the state.
-/

inductive DiccNode where
  | nil : DiccNode
  | node (clave definicion : Int) (izquierda derecha : DiccNode) : DiccNode
deriving DecidableEq, Repr

/-- `largo(nodo)`: `-1` for null, else `1 + max(largo(izq), largo(der))`
(line 240-242). -/
def largo : DiccNode → Int
  | .nil => -1
  | .node _ _ l r => 1 + max (largo l) (largo r)

/-- Left child (`nodo->izquierda`), null mapped to null. -/
def DiccNode.izq : DiccNode → DiccNode
  | .nil => .nil
  | .node _ _ l _ => l

/-- Right child (`nodo->derecha`), null mapped to null. -/
def DiccNode.der : DiccNode → DiccNode
  | .nil => .nil
  | .node _ _ _ r => r

/-- `rotacionIzquierda` (lines 197-210), without the parent-pointer fixups. -/
def rotacionIzquierda : DiccNode → DiccNode
  | .node c d l (.node rc rd rl rr) => .node rc rd (.node c d l rl) rr
  | t => t

/-- `rotacionDerecha` (lines 212-225). -/
def rotacionDerecha : DiccNode → DiccNode
  | .node c d (.node lc ld ll lr) r => .node lc ld ll (.node c d lr r)
  | t => t

/-- `rotacionIzqLuegoDer` (lines 228-231). -/
def rotacionIzqLuegoDer : DiccNode → DiccNode
  | .node c d l r => rotacionDerecha (.node c d (rotacionIzquierda l) r)
  | t => t

/-- `rotacionDerLuegoIzq` (lines 234-237). -/
def rotacionDerLuegoIzq : DiccNode → DiccNode
  | .node c d l r => rotacionIzquierda (.node c d (rotacionDerecha l) r)
  | t => t

/-- One step of `rebalancear` at a node (lines 180-189): recompute the balance
via `largo`, rotate on `±2`; the recursion `rebalancear(nodo->padre)` is the
return path of `definirRec`. -/
def rebalancearNodo : DiccNode → DiccNode
  | .nil => .nil
  | .node c d l r =>
      let b := largo r - largo l
      if b = -2 then
        if largo l.izq ≥ largo l.der then rotacionDerecha (.node c d l r)
        else rotacionIzqLuegoDer (.node c d l r)
      else if b = 2 then
        if largo r.der ≥ largo r.izq then rotacionIzquierda (.node c d l r)
        else rotacionDerLuegoIzq (.node c d l r)
      else .node c d l r

/-- The descent loop of `definir` (lines 95-113): walk down comparing; on an
equal key overwrite `definicion` and stop (no `rebalancear` call); on reaching
a null child install the new leaf and rebalance every ancestor on the way back
up (`rebalancear(padre)` walks from the parent to the root).  Returns the new
subtree and whether a new node was added. -/
def definirRec : DiccNode → Int → Int → DiccNode × Bool
  | .nil, k, d => (.node k d .nil .nil, true)
  | .node c dd l r, k, d =>
      if c = k then (.node c d l r, false)
      else if k < c then
        let p := definirRec l k d
        ((if p.2 then rebalancearNodo (.node c dd p.1 r) else .node c dd p.1 r), p.2)
      else
        let p := definirRec r k d
        ((if p.2 then rebalancearNodo (.node c dd l p.1) else .node c dd l p.1), p.2)

/-- The dictionary object: root pointer and `_cardinal`. -/
structure DiccionarioAVL where
  raiz : DiccNode
  cardinal : Nat
deriving DecidableEq, Repr

/-- `DiccionarioAVL::definir` (lines 92-116): create the root when
`cardinal() == 0`, else run the descent loop; `_cardinal++` runs
unconditionally at the end. -/
def DiccionarioAVL.definir (st : DiccionarioAVL) (clave definicion : Int) :
    DiccionarioAVL :=
  if st.cardinal = 0 then
    { raiz := .node clave definicion .nil .nil, cardinal := st.cardinal + 1 }
  else
    { raiz := (definirRec st.raiz clave definicion).1, cardinal := st.cardinal + 1 }

/-- `DiccionarioAVL::definido` (lines 74-81). -/
def definidoRec : DiccNode → Int → Bool
  | .nil, _ => false
  | .node c _ l r, k =>
      if c = k then true
      else if k < c then definidoRec l k else definidoRec r k

def DiccionarioAVL.definido (st : DiccionarioAVL) (clave : Int) : Bool :=
  definidoRec st.raiz clave

/-- `DiccionarioAVL::obtener` (lines 83-90); dereferencing the null pointer on
an absent key is the `none` case. -/
def obtenerRec : DiccNode → Int → Option Int
  | .nil, _ => none
  | .node c d l r, k =>
      if c = k then some d
      else if k < c then obtenerRec l k else obtenerRec r k

def DiccionarioAVL.obtener (st : DiccionarioAVL) (clave : Int) : Option Int :=
  obtenerRec st.raiz clave

/-- Number of entries actually stored in the dictionary tree. -/
def diccCount : DiccNode → Nat
  | .nil => 0
  | .node _ _ l r => 1 + diccCount l + diccCount r

/-!
The sharded store `AVLTreeAdaptive` (`src/include/AVLTreeAdaptive.h`).  The
router object (`AdaptiveRouter.h` is absent from `src/`) is passed to each
operation as the routing function it currently computes — with the
load-adaptive strategies the function changes as load changes; the router's
per-shard load counters (`recordInsertion`/`recordRemoval`, spec §4.3) live in
the store state as `loads`.  The per-shard tree `AVLTree<K,V>` (`AVLTree.h`
is also absent from `src/`) is modelled by the in-`src` BOM of
`AVLTreeConcurrent.h`, the spec's mandated shard backend.
-/

/-- `TreeShard`: the contained tree and the `local_size` counter (the mutex is
invisible in a sequential embedding).  `local_size` is an unsigned counter;
`local_size--` is modelled with truncated `Nat` subtraction. -/
structure TreeShard where
  tree : AVLTreeC
  local_size : Nat
deriving DecidableEq, Repr

structure AVLTreeAdaptive where
  shards : List TreeShard
  loads : List Int
deriving DecidableEq, Repr

/-- Adjust the load counter of shard `i` by `d` (`recordInsertion` /
`recordRemoval`, modelled from spec §4.3). -/
def adjustAt : List Int → Nat → Int → List Int
  | [], _, _ => []
  | x :: xs, 0, d => (x + d) :: xs
  | x :: xs, n + 1, d => x :: adjustAt xs n d

/-- `AVLTreeAdaptive::insert` (lines 55-71): route, insert into that shard's
tree, and bump `local_size` and the router counter iff the tree grew.  An
out-of-range shard index would be undefined behaviour in the C++ (the router
guarantees `idx < N`); the model leaves the store unchanged there. -/
def AVLTreeAdaptive.insert (route : Int → Nat) (st : AVLTreeAdaptive)
    (key value : Int) : AVLTreeAdaptive :=
  let idx := route key
  match st.shards.get? idx with
  | none => st
  | some sh =>
      let t2 := sh.tree.insert key value
      if t2.size > sh.tree.size then
        { shards := st.shards.set idx { tree := t2, local_size := sh.local_size + 1 },
          loads := adjustAt st.loads idx 1 }
      else
        { shards := st.shards.set idx { tree := t2, local_size := sh.local_size },
          loads := st.loads }

/-- The scan of `AVLTreeAdaptive::remove` (lines 74-90): try every shard in
index order; on the first shard whose tree shrinks, decrement its counter and
stop, reporting the shard index (for `recordRemoval`). -/
def removeScan : List TreeShard → Int → List TreeShard × Option Nat
  | [], _ => ([], none)
  | sh :: rest, key =>
      let t2 := sh.tree.remove key
      if t2.size < sh.tree.size then
        ({ tree := t2, local_size := sh.local_size - 1 } :: rest, some 0)
      else
        let p := removeScan rest key
        ({ tree := t2, local_size := sh.local_size } :: p.1, p.2.map (· + 1))

def AVLTreeAdaptive.remove (st : AVLTreeAdaptive) (key : Int) : AVLTreeAdaptive :=
  let p := removeScan st.shards key
  { shards := p.1,
    loads :=
      match p.2 with
      | some i => adjustAt st.loads i (-1)
      | none => st.loads }

/-- The fan-out loop of `contains`/`get` (lines 104-113 / 130-139): probe every
shard except the already-probed `skip` index, in index order. -/
def fanContains : Nat → Nat → List TreeShard → Int → Bool
  | _, _, [], _ => false
  | i, skip, sh :: rest, key =>
      if i = skip then fanContains (i + 1) skip rest key
      else if sh.tree.contains key then true
      else fanContains (i + 1) skip rest key

/-- `AVLTreeAdaptive::contains` (lines 93-116): probe the routed shard, then
fan out over the others. -/
def AVLTreeAdaptive.contains (route : Int → Nat) (st : AVLTreeAdaptive)
    (key : Int) : Bool :=
  let idx := route key
  match st.shards.get? idx with
  | some sh =>
      if sh.tree.contains key then true else fanContains 0 idx st.shards key
  | none => fanContains 0 idx st.shards key

/-- Fan-out half of `get`; the exhausted scan is the final
`throw std::runtime_error("Key not found")`. -/
def fanGet : Nat → Nat → List TreeShard → Int → Except TreeError Int
  | _, _, [], _ => .error .notFound
  | i, skip, sh :: rest, key =>
      if i = skip then fanGet (i + 1) skip rest key
      else if sh.tree.contains key then sh.tree.get key
      else fanGet (i + 1) skip rest key

/-- `AVLTreeAdaptive::get` (lines 119-142). -/
def AVLTreeAdaptive.get (route : Int → Nat) (st : AVLTreeAdaptive)
    (key : Int) : Except TreeError Int :=
  let idx := route key
  match st.shards.get? idx with
  | some sh =>
      if sh.tree.contains key then sh.tree.get key else fanGet 0 idx st.shards key
  | none => fanGet 0 idx st.shards key

/-- Number of per-shard BOM probes (`shard->tree.contains` calls) performed by
the fan-out loop before it stops. -/
def fanProbes : Nat → Nat → List TreeShard → Int → Nat
  | _, _, [], _ => 0
  | i, skip, sh :: rest, key =>
      if i = skip then fanProbes (i + 1) skip rest key
      else if sh.tree.contains key then 1
      else 1 + fanProbes (i + 1) skip rest key

/-- Number of per-shard BOM probes performed by `contains` (the routed probe,
plus the fan-out probes on a miss). -/
def AVLTreeAdaptive.containsProbes (route : Int → Nat) (st : AVLTreeAdaptive)
    (key : Int) : Nat :=
  let idx := route key
  match st.shards.get? idx with
  | some sh =>
      if sh.tree.contains key then 1 else 1 + fanProbes 0 idx st.shards key
  | none => fanProbes 0 idx st.shards key

/-- `AVLTreeAdaptive::size` (lines 145-151): sum of the `local_size`
counters. -/
def sumCounters : List TreeShard → Nat
  | [] => 0
  | sh :: rest => sh.local_size + sumCounters rest

def AVLTreeAdaptive.size (st : AVLTreeAdaptive) : Nat :=
  sumCounters st.shards

/-- `AVLTreeAdaptive` holds no redirect index member (none is declared in
`AVLTreeAdaptive.h`): there is nothing to consult, so the lookup of the
claim's redirect index on the store is constantly `none`. -/
def AVLTreeAdaptive.redirectLookup (_st : AVLTreeAdaptive) (_key : Int) :
    Option Nat := none

/-- Indices of the shards whose BOM contains `key`. -/
def shardsContainingAux : Nat → List TreeShard → Int → List Nat
  | _, [], _ => []
  | i, sh :: rest, key =>
      if sh.tree.contains key then i :: shardsContainingAux (i + 1) rest key
      else shardsContainingAux (i + 1) rest key

def shardsContaining (st : AVLTreeAdaptive) (key : Int) : List Nat :=
  shardsContainingAux 0 st.shards key

/-- Number of keys stored in a tree. -/
def sizeK : AVLNode → Nat
  | .nil => 0
  | .node _ _ l r _ => 1 + sizeK l + sizeK r

/-- The index of the first shard whose BOM contains `key` (the shard the
code's scan will remove from). -/
def firstIdx : List TreeShard → Int → Option Nat
  | [], _ => none
  | sh :: rest, key =>
      if sh.tree.contains key then some 0
      else (firstIdx rest key).map (· + 1)

/-- One removal attempt on shard `i`, as the spec's `remove` step performs it:
succeeds iff the shard's tree shrinks, then updates counter and load. -/
def tryRemoveAt (st : AVLTreeAdaptive) (i : Nat) (key : Int) :
    Option AVLTreeAdaptive :=
  match st.shards.get? i with
  | none => none
  | some sh =>
      let t2 := sh.tree.remove key
      if t2.size < sh.tree.size then
        some { shards := st.shards.set i { tree := t2, local_size := sh.local_size - 1 },
               loads := adjustAt st.loads i (-1) }
      else none

def removeFirstIn (st : AVLTreeAdaptive) (key : Int) : List Nat → AVLTreeAdaptive
  | [] => st
  | i :: rest =>
      match tryRemoveAt st i key with
      | some st2 => st2
      | none => removeFirstIn st key rest

/-- The removal order the spec prescribes (§4.5 `remove`): `route(k)` first,
then the redirect-index target if different, then the remaining shards in
index order.  This definition follows the spec's words, for comparison with
`AVLTreeAdaptive.remove` as the code implements it. -/
def specRemoveOrderList (route : Int → Nat) (redirect : Int → Option Nat)
    (n : Nat) (key : Int) : List Nat :=
  [route key] ++
    (match redirect key with
     | some j => if j = route key then [] else [j]
     | none => []) ++
    ((List.range n).filter fun i => !(i == route key) && !(redirect key == some i))

/-- Spec-ordered remove (§4.5): attempt shards in `specRemoveOrderList` order,
performing at most one removal. -/
def removeSpecOrder (route : Int → Nat) (redirect : Int → Option Nat)
    (st : AVLTreeAdaptive) (key : Int) : AVLTreeAdaptive :=
  removeFirstIn st key (specRemoveOrderList route redirect st.shards.length key)

/-! Projection equations for the `AVLTreeConcurrent` wrapper. -/

theorem AVLTreeC.insert_root (t : AVLTreeC) (k v : Int) :
    (t.insert k v).root = (insertRec t.root k v).1 := rfl

theorem AVLTreeC.insert_size (t : AVLTreeC) (k v : Int) :
    (t.insert k v).size = if (insertRec t.root k v).2 then t.size + 1 else t.size := rfl

theorem AVLTreeC.remove_root (t : AVLTreeC) (k : Int) :
    (t.remove k).root = (removeRec t.root k).1 := rfl

theorem AVLTreeC.remove_size (t : AVLTreeC) (k : Int) :
    (t.remove k).size = if (removeRec t.root k).2 then t.size - 1 else t.size := rfl

/-- `rebalance` is the identity on a node that already satisfies the balance
and stored-height invariants locally. -/
theorem rebalance_id (k v : Int) (l r : AVLNode) (h : Int)
    (hbf : (height r - height l).natAbs ≤ 1)
    (hhv : h = 1 + max (height l) (height r)) :
    rebalance (.node k v l r h) = .node k v l r h := by
  simp only [rebalance]
  rw [if_neg (by omega), if_neg (by omega), hhv]

/-- Removing an absent key from an invariant-satisfying tree is a structural
no-op with a `false` flag. -/
theorem remove_absent_id :
    ∀ (t : AVLNode) (y : Int), isBST t = true → heightsOK t = true →
      balancedOK t = true → containsRec t y = false → removeRec t y = (t, false) := by
  intro t
  induction t with
  | nil => intro y _ _ _ _; rfl
  | node k v l r h ihl ihr =>
      intro y hb hh hbal hc
      simp only [isBST_node, heightsOK_node, balancedOK_node, Bool.and_eq_true,
        decide_eq_true_eq] at hb hh hbal
      obtain ⟨⟨⟨al, ar⟩, bstl⟩, bstr⟩ := hb
      obtain ⟨⟨hhv, hokl⟩, hokr⟩ := hh
      obtain ⟨⟨hbv, hball⟩, hbalr⟩ := hbal
      by_cases hlt : y < k
      · have hcl : containsRec l y = false := by
          simp only [containsRec, if_neg (show ¬(y == k) = true by
            simp only [beq_iff_eq]; omega), if_pos hlt] at hc
          exact hc
        rw [removeRec_eq_lt hlt, ihl y bstl hokl hball hcl]
        simp only [pair_fst, pair_snd]
        rw [rebalance_id k v l r h hbv hhv]
      · by_cases hgt : k < y
        · have hcr : containsRec r y = false := by
            simp only [containsRec, if_neg (show ¬(y == k) = true by
              simp only [beq_iff_eq]; omega), if_neg hlt] at hc
            exact hc
          rw [removeRec_eq_gt hlt hgt, ihr y bstr hokr hbalr hcr]
          simp only [pair_fst, pair_snd]
          rw [rebalance_id k v l r h hbv hhv]
        · exfalso
          have hyk : y = k := by omega
          simp [containsRec, hyk] at hc

theorem memK_sizeK_pos {x : Int} :
    ∀ {t : AVLNode}, memK x t = true → 1 ≤ sizeK t := by
  intro t
  induction t with
  | nil => simp [memK]
  | node k v l r h ihl ihr => intro _; simp [sizeK]; omega

/-- Claim C2: after every public operation (insert or remove, from any tree
satisfying the invariants, with any keys), every node of the single-shard
balanced map satisfies the BST ordering invariant, the height invariant
`height(n) = 1 + max(height left, height right)` with null of height 0, and
the AVL balance invariant `|height right − height left| ≤ 1`. -/
theorem c2_avl_invariants_preserved (t : AVLTreeC) (k v y : Int)
    (hb : isBST t.root = true) (hh : heightsOK t.root = true)
    (hba : balancedOK t.root = true) :
    (isBST (t.insert k v).root = true ∧ heightsOK (t.insert k v).root = true ∧
     balancedOK (t.insert k v).root = true) ∧
    (isBST (t.remove y).root = true ∧ heightsOK (t.remove y).root = true ∧
     balancedOK (t.remove y).root = true) :=
  ⟨(insert_sound k v t.root hb hh hba).1, (remove_sound t.root y hb hh hba).1⟩

def c2wTree : AVLTreeC :=
  ⟨.node 2 20 (.node 1 10 .nil .nil 1) (.node 3 30 .nil .nil 1) 2, 3⟩

theorem c2_avl_invariants_preserved_witness :
    (isBST c2wTree.root = true ∧ heightsOK c2wTree.root = true ∧
     balancedOK c2wTree.root = true) ∧
    ((isBST (c2wTree.insert 5 50).root = true ∧
      heightsOK (c2wTree.insert 5 50).root = true ∧
      balancedOK (c2wTree.insert 5 50).root = true) ∧
     (isBST (c2wTree.remove 2).root = true ∧
      heightsOK (c2wTree.remove 2).root = true ∧
      balancedOK (c2wTree.remove 2).root = true)) :=
  ⟨⟨by decide, by decide, by decide⟩,
   c2_avl_invariants_preserved c2wTree 5 50 2 (by decide) (by decide) (by decide)⟩

/-- Claim C3, on `DiccionarioAVL::definir` (the claim's cited map code): the
claim is that redefining an existing key overwrites the value and leaves the
element count unchanged.  The code does overwrite the value, but it
increments `_cardinal` unconditionally: after `definir(5,1); definir(5,2)` the
dictionary stores the single entry `5 ↦ 2` yet `cardinal()` reports 2.  (The
other cited implementation, `AVLTreeConcurrent::insert`, bumps `size_` only on
the `inserted` flag and does satisfy the claim.) -/
theorem c3_dicc_definir_duplicate_increments_cardinal :
    (DiccionarioAVL.definir (DiccionarioAVL.definir ⟨.nil, 0⟩ 5 1) 5 2).cardinal = 2 ∧
    diccCount (DiccionarioAVL.definir (DiccionarioAVL.definir ⟨.nil, 0⟩ 5 1) 5 2).raiz = 1 ∧
    DiccionarioAVL.obtener (DiccionarioAVL.definir (DiccionarioAVL.definir ⟨.nil, 0⟩ 5 1) 5 2) 5 = some 2 ∧
    DiccionarioAVL.definido (DiccionarioAVL.definir (DiccionarioAVL.definir ⟨.nil, 0⟩ 5 1) 5 2) 5 = true ∧
    (DiccionarioAVL.definir (⟨.nil, 0⟩ : DiccionarioAVL) 5 1).cardinal = 1 := by
  decide

/-- Claim C10: `record_redirect(k, n, n)` with equal natural and actual shard
returns without modifying the index; a pre-existing (now stale) entry for `k`
is left in place and still answers lookups. -/
theorem c10_record_redirect_selfmap_noop (m : List (Int × Nat)) (key : Int)
    (n s : Nat) (hs : RedirectIndex.lookup m key = some s) :
    RedirectIndex.record_redirect m key n n = m ∧
    RedirectIndex.lookup (RedirectIndex.record_redirect m key n n) key = some s := by
  constructor
  · simp [RedirectIndex.record_redirect]
  · simp [RedirectIndex.record_redirect, hs]

theorem c10_record_redirect_selfmap_noop_witness :
    RedirectIndex.lookup [((7 : Int), (2 : Nat))] 7 = some 2 ∧
    (RedirectIndex.record_redirect [((7 : Int), (2 : Nat))] 7 5 5 = [(7, 2)] ∧
     RedirectIndex.lookup (RedirectIndex.record_redirect [((7 : Int), (2 : Nat))] 7 5 5) 7 = some 2) :=
  ⟨by decide, c10_record_redirect_selfmap_noop [(7, 2)] 7 5 2 (by decide)⟩

/-- Claim C4: for every invariant-satisfying tree whose node for the removed
key has two children (stated at the node itself, with arbitrary subtrees),
`removeRec` replaces the node by its in-order successor — the minimum of the
right subtree — copying the successor's key and value and recursively
removing the successor from the right subtree; no other entry is lost,
duplicated or remapped; and the flag reports whether an entry was removed
(here `true`, and in general exactly the `contains` verdict). -/
theorem c4_remove_successor_semantics
    (k v lk lv rk rv : Int) (ll lr rl rr : AVLNode) (lh rh h : Int)
    (hb : isBST (AVLNode.node k v (.node lk lv ll lr lh) (.node rk rv rl rr rh) h) = true)
    (hh : heightsOK (AVLNode.node k v (.node lk lv ll lr lh) (.node rk rv rl rr rh) h) = true)
    (hba : balancedOK (AVLNode.node k v (.node lk lv ll lr lh) (.node rk rv rl rr rh) h) = true) :
    ∃ sk sv2 sr sh2,
      findMin (AVLNode.node rk rv rl rr rh) = .node sk sv2 .nil sr sh2 ∧
      memK sk (AVLNode.node rk rv rl rr rh) = true ∧
      (∀ x, memK x (AVLNode.node rk rv rl rr rh) = true → sk ≤ x) ∧
      removeRec (AVLNode.node k v (.node lk lv ll lr lh) (.node rk rv rl rr rh) h) k =
        (rebalance (.node sk sv2 (.node lk lv ll lr lh)
            (removeRec (.node rk rv rl rr rh) sk).1 h),
         (removeRec (.node rk rv rl rr rh) sk).2) ∧
      (∀ x w,
        memVal x w
            (removeRec (AVLNode.node k v (.node lk lv ll lr lh) (.node rk rv rl rr rh) h) k).1 = true ↔
          (memVal x w (AVLNode.node k v (.node lk lv ll lr lh) (.node rk rv rl rr rh) h) = true ∧
           x ≠ k)) ∧
      (removeRec (AVLNode.node k v (.node lk lv ll lr lh) (.node rk rv rl rr rh) h) k).2 = true ∧
      (∀ y,
        (removeRec (AVLNode.node k v (.node lk lv ll lr lh) (.node rk rv rl rr rh) h) y).2 =
          containsRec (AVLNode.node k v (.node lk lv ll lr lh) (.node rk rv rl rr rh) h) y) := by
  have hbstr : isBST (AVLNode.node rk rv rl rr rh) = true := by
    rw [isBST_node] at hb
    simp only [Bool.and_eq_true] at hb
    exact hb.2
  obtain ⟨sk, sv2, sr, sh2, hfm⟩ :=
    findMin_shape (AVLNode.node rk rv rl rr rh) (by simp)
  refine ⟨sk, sv2, sr, sh2, hfm, (findMin_mem hfm).1, findMin_le hbstr hfm, ?_, ?_, ?_, ?_⟩
  · exact removeRec_eq_two (by omega) (by omega) hfm
  · exact fun x w =>
      remove_memVal (AVLNode.node k v (.node lk lv ll lr lh) (.node rk rv rl rr rh) h) k hb x w
  · rw [(remove_sound (AVLNode.node k v (.node lk lv ll lr lh)
      (.node rk rv rl rr rh) h) k hb hh hba).2.2.1]
    simp [containsRec]
  · exact fun y =>
      (remove_sound (AVLNode.node k v (.node lk lv ll lr lh)
        (.node rk rv rl rr rh) h) y hb hh hba).2.2.1

theorem c4_remove_successor_semantics_witness :
    (isBST (AVLNode.node 2 20 (.node 1 10 .nil .nil 1)
        (.node 4 40 (.node 3 30 .nil .nil 1) .nil 2) 3) = true ∧
     heightsOK (AVLNode.node 2 20 (.node 1 10 .nil .nil 1)
        (.node 4 40 (.node 3 30 .nil .nil 1) .nil 2) 3) = true ∧
     balancedOK (AVLNode.node 2 20 (.node 1 10 .nil .nil 1)
        (.node 4 40 (.node 3 30 .nil .nil 1) .nil 2) 3) = true) ∧
    (∃ sk sv2 sr sh2,
      findMin (AVLNode.node 4 40 (.node 3 30 .nil .nil 1) .nil 2) = .node sk sv2 .nil sr sh2 ∧
      memK sk (AVLNode.node 4 40 (.node 3 30 .nil .nil 1) .nil 2) = true ∧
      (∀ x, memK x (AVLNode.node 4 40 (.node 3 30 .nil .nil 1) .nil 2) = true → sk ≤ x) ∧
      removeRec (AVLNode.node 2 20 (.node 1 10 .nil .nil 1)
          (.node 4 40 (.node 3 30 .nil .nil 1) .nil 2) 3) 2 =
        (rebalance (.node sk sv2 (.node 1 10 .nil .nil 1)
            (removeRec (.node 4 40 (.node 3 30 .nil .nil 1) .nil 2) sk).1 3),
         (removeRec (.node 4 40 (.node 3 30 .nil .nil 1) .nil 2) sk).2) ∧
      (∀ x w,
        memVal x w
            (removeRec (AVLNode.node 2 20 (.node 1 10 .nil .nil 1)
              (.node 4 40 (.node 3 30 .nil .nil 1) .nil 2) 3) 2).1 = true ↔
          (memVal x w (AVLNode.node 2 20 (.node 1 10 .nil .nil 1)
              (.node 4 40 (.node 3 30 .nil .nil 1) .nil 2) 3) = true ∧ x ≠ 2)) ∧
      (removeRec (AVLNode.node 2 20 (.node 1 10 .nil .nil 1)
          (.node 4 40 (.node 3 30 .nil .nil 1) .nil 2) 3) 2).2 = true ∧
      (∀ y,
        (removeRec (AVLNode.node 2 20 (.node 1 10 .nil .nil 1)
            (.node 4 40 (.node 3 30 .nil .nil 1) .nil 2) 3) y).2 =
          containsRec (AVLNode.node 2 20 (.node 1 10 .nil .nil 1)
            (.node 4 40 (.node 3 30 .nil .nil 1) .nil 2) 3) y)) :=
  ⟨⟨by decide, by decide, by decide⟩,
   c4_remove_successor_semantics 2 20 1 10 4 40 .nil .nil (.node 3 30 .nil .nil 1) .nil 1 2 3
     (by decide) (by decide) (by decide)⟩

/-- Claim C5: `gc_expired(f)` removes exactly the entries whose natural shard
under `f` equals their recorded actual shard, returns the number of entries
removed, and never removes an entry that is still needed (`f k ≠ actual`). -/
theorem c5_gc_expired_exact (f : Int → Nat) (m : List (Int × Nat)) :
    (RedirectIndex.gc_expired f m).1 = m.filter (fun e => !(f e.1 == e.2)) ∧
    (RedirectIndex.gc_expired f m).2 = (m.filter (fun e => f e.1 == e.2)).length ∧
    (∀ e ∈ m, f e.1 ≠ e.2 → e ∈ (RedirectIndex.gc_expired f m).1) ∧
    (∀ e ∈ (RedirectIndex.gc_expired f m).1, e ∈ m ∧ f e.1 ≠ e.2) := by
  induction m with
  | nil => simp [RedirectIndex.gc_expired]
  | cons e rest ih =>
      obtain ⟨ih1, ih2, ih3, ih4⟩ := ih
      obtain ⟨k, a⟩ := e
      by_cases hfk : f k = a
      · have hfil1 : List.filter (fun e => !(f e.1 == e.2)) ((k, a) :: rest) =
            List.filter (fun e => !(f e.1 == e.2)) rest := by
          simp [List.filter_cons, hfk]
        have hfil2 : List.filter (fun e => f e.1 == e.2) ((k, a) :: rest) =
            (k, a) :: List.filter (fun e => f e.1 == e.2) rest := by
          simp [List.filter_cons, hfk]
        simp only [RedirectIndex.gc_expired, if_pos hfk, hfil1, hfil2,
          List.length_cons]
        refine ⟨ih1, by omega, ?_, ?_⟩
        · intro e he hne
          rcases List.mem_cons.1 he with rfl | he
          · exact absurd hfk hne
          · exact ih3 e he hne
        · intro e he
          obtain ⟨h1, h2⟩ := ih4 e he
          exact ⟨List.mem_cons_of_mem _ h1, h2⟩
      · have hfil1 : List.filter (fun e => !(f e.1 == e.2)) ((k, a) :: rest) =
            (k, a) :: List.filter (fun e => !(f e.1 == e.2)) rest := by
          simp [List.filter_cons, hfk]
        have hfil2 : List.filter (fun e => f e.1 == e.2) ((k, a) :: rest) =
            List.filter (fun e => f e.1 == e.2) rest := by
          simp [List.filter_cons, hfk]
        simp only [RedirectIndex.gc_expired, if_neg hfk, hfil1, hfil2]
        refine ⟨by rw [ih1], ih2, ?_, ?_⟩
        · intro e he hne
          rcases List.mem_cons.1 he with rfl | he
          · exact List.mem_cons_self _ _
          · exact List.mem_cons_of_mem _ (ih3 e he hne)
        · intro e he
          rcases List.mem_cons.1 he with rfl | he
          · exact ⟨List.mem_cons_self _ _, hfk⟩
          · obtain ⟨h1, h2⟩ := ih4 e he
            exact ⟨List.mem_cons_of_mem _ h1, h2⟩

/-- The router of `src/tests/gc_test.cpp` `test_basic_gc` (keys 10 and 20 now
route naturally to shard 3, key 30 still routes to 2). -/
def gcTestRouter (k : Int) : Nat :=
  if k = 10 ∨ k = 20 then 3 else if k = 30 then 2 else 0

/-- The index state of `test_basic_gc` after its three `record_redirect`
calls. -/
def gcTestIndex : List (Int × Nat) :=
  RedirectIndex.record_redirect
    (RedirectIndex.record_redirect
      (RedirectIndex.record_redirect [] 10 0 3) 20 1 3) 30 2 5

theorem c5_gc_expired_exact_witness :
    (30, 5) ∈ gcTestIndex ∧ gcTestRouter 30 ≠ 5 ∧
    ((30, 5) ∈ (RedirectIndex.gc_expired gcTestRouter gcTestIndex).1 ∧
     (RedirectIndex.gc_expired gcTestRouter gcTestIndex).2 = 2 ∧
     (RedirectIndex.gc_expired gcTestRouter gcTestIndex).1 = [(30, 5)]) :=
  ⟨by decide, by decide,
   (c5_gc_expired_exact gcTestRouter gcTestIndex).2.2.1 (30, 5) (by decide) (by decide),
   by decide, by decide⟩

/-- Claim C8: `get` on an absent key fails with the not-found error and
otherwise returns the stored value; `minKey`/`maxKey` fail with the empty
error exactly on the empty tree and otherwise return the leftmost (minimum)
and rightmost (maximum) key. -/
theorem c8_error_surface (t : AVLTreeC) (k : Int) (hb : isBST t.root = true) :
    (AVLTreeC.get t k = .error .notFound ↔ AVLTreeC.contains t k = false) ∧
    (∀ w, AVLTreeC.get t k = .ok w ↔ memVal k w t.root = true) ∧
    (AVLTreeC.minKey t = .error .empty ↔ t.root = .nil) ∧
    (AVLTreeC.maxKey t = .error .empty ↔ t.root = .nil) ∧
    (∀ m, AVLTreeC.minKey t = .ok m →
      memK m t.root = true ∧ ∀ x, memK x t.root = true → m ≤ x) ∧
    (∀ m, AVLTreeC.maxKey t = .ok m →
      memK m t.root = true ∧ ∀ x, memK x t.root = true → x ≤ m) := by
  refine ⟨getRec_notFound_iff, fun w => getRec_ok_iff hb, ?_, ?_, ?_, ?_⟩
  · cases hfm : findMin t.root with
    | nil =>
        simp only [AVLTreeC.minKey, hfm]
        exact ⟨fun _ => findMin_nil_iff.1 hfm, fun _ => trivial⟩
    | node sk sv sl sr sh =>
        simp only [AVLTreeC.minKey, hfm]
        constructor
        · intro hc
          exact absurd hc (by simp)
        · intro hc
          rw [hc] at hfm
          simp [findMin] at hfm
  · cases hfm : findMaxNode t.root with
    | nil =>
        simp only [AVLTreeC.maxKey, hfm]
        exact ⟨fun _ => findMax_nil_iff.1 hfm, fun _ => trivial⟩
    | node mk mv ml mr mh =>
        simp only [AVLTreeC.maxKey, hfm]
        constructor
        · intro hc
          exact absurd hc (by simp)
        · intro hc
          rw [hc] at hfm
          simp [findMaxNode] at hfm
  · intro m hm
    cases hroot : t.root with
    | nil =>
        rw [AVLTreeC.minKey, hroot] at hm
        simp [findMin] at hm
    | node k0 v0 l0 r0 h0 =>
        obtain ⟨sk, sv, sr, sh, hfm⟩ :=
          findMin_shape (.node k0 v0 l0 r0 h0) (by simp)
        rw [AVLTreeC.minKey, hroot, hfm] at hm
        injection hm with hm
        subst hm
        rw [hroot] at hb
        exact ⟨(findMin_mem hfm).1, findMin_le hb hfm⟩
  · intro m hm
    cases hroot : t.root with
    | nil =>
        rw [AVLTreeC.maxKey, hroot] at hm
        simp [findMaxNode] at hm
    | node k0 v0 l0 r0 h0 =>
        obtain ⟨mk, mv, ml, mh, hfm⟩ :=
          findMax_shape (.node k0 v0 l0 r0 h0) (by simp)
        rw [AVLTreeC.maxKey, hroot, hfm] at hm
        injection hm with hm
        subst hm
        rw [hroot] at hb
        exact ⟨findMax_mem hfm, findMax_ge hb hfm⟩

theorem c8_error_surface_witness :
    isBST c2wTree.root = true ∧
    (AVLTreeC.get c2wTree 9 = .error .notFound ↔ AVLTreeC.contains c2wTree 9 = false) ∧
    (∀ w, AVLTreeC.get c2wTree 9 = .ok w ↔ memVal 9 w c2wTree.root = true) ∧
    (AVLTreeC.minKey c2wTree = .error .empty ↔ c2wTree.root = .nil) ∧
    (AVLTreeC.maxKey c2wTree = .error .empty ↔ c2wTree.root = .nil) ∧
    (∀ m, AVLTreeC.minKey c2wTree = .ok m →
      memK m c2wTree.root = true ∧ ∀ x, memK x c2wTree.root = true → m ≤ x) ∧
    (∀ m, AVLTreeC.maxKey c2wTree = .ok m →
      memK m c2wTree.root = true ∧ ∀ x, memK x c2wTree.root = true → x ≤ m) :=
  ⟨by decide, c8_error_surface c2wTree 9 (by decide)⟩

/-! Lookup fan-out lemmas for the sharded store. -/

theorem fanContains_iff (key : Int) :
    ∀ (shards : List TreeShard) (i skip : Nat),
      fanContains i skip shards key = true ↔
        ∃ j sh, shards.get? j = some sh ∧ i + j ≠ skip ∧
          sh.tree.contains key = true := by
  intro shards
  induction shards with
  | nil => intro i skip; simp [fanContains]
  | cons sh rest ih =>
      intro i skip
      simp only [fanContains]
      by_cases hi : i = skip
      · rw [if_pos hi, ih (i + 1) skip]
        constructor
        · rintro ⟨j, sh2, hget, hne, hc⟩
          exact ⟨j + 1, sh2, by simpa using hget, by omega, hc⟩
        · rintro ⟨j, sh2, hget, hne, hc⟩
          cases j with
          | zero => omega
          | succ j' => exact ⟨j', sh2, by simpa using hget, by omega, hc⟩
      · rw [if_neg hi]
        by_cases hc0 : sh.tree.contains key = true
        · rw [if_pos hc0]
          constructor
          · intro _
            exact ⟨0, sh, rfl, by omega, hc0⟩
          · intro _
            rfl
        · rw [if_neg hc0, ih (i + 1) skip]
          constructor
          · rintro ⟨j, sh2, hget, hne, hc⟩
            exact ⟨j + 1, sh2, by simpa using hget, by omega, hc⟩
          · rintro ⟨j, sh2, hget, hne, hc⟩
            cases j with
            | zero =>
                rw [List.get?_cons_zero] at hget
                injection hget with hget
                subst hget
                exact absurd hc hc0
            | succ j' => exact ⟨j', sh2, by simpa using hget, by omega, hc⟩

theorem fanGet_spec (key : Int) :
    ∀ (shards : List TreeShard) (i skip : Nat),
      fanContains i skip shards key = true →
      ∃ j sh, shards.get? j = some sh ∧ i + j ≠ skip ∧
        sh.tree.contains key = true ∧
        fanGet i skip shards key = sh.tree.get key := by
  intro shards
  induction shards with
  | nil => intro i skip hc; simp [fanContains] at hc
  | cons sh rest ih =>
      intro i skip hc
      simp only [fanContains] at hc
      simp only [fanGet]
      by_cases hi : i = skip
      · rw [if_pos hi] at hc ⊢
        obtain ⟨j, sh2, hget, hne, hc2, hg⟩ := ih (i + 1) skip hc
        exact ⟨j + 1, sh2, by simpa using hget, by omega, hc2, hg⟩
      · rw [if_neg hi] at hc ⊢
        by_cases hc0 : sh.tree.contains key = true
        · rw [if_pos hc0]
          exact ⟨0, sh, rfl, by omega, hc0, rfl⟩
        · rw [if_neg hc0] at hc ⊢
          obtain ⟨j, sh2, hget, hne, hc2, hg⟩ := ih (i + 1) skip hc
          exact ⟨j + 1, sh2, by simpa using hget, by omega, hc2, hg⟩

theorem fanProbes_le (key : Int) :
    ∀ (shards : List TreeShard) (i skip : Nat),
      fanProbes i skip shards key ≤ shards.length := by
  intro shards
  induction shards with
  | nil => intro i skip; simp [fanProbes]
  | cons sh rest ih =>
      intro i skip
      simp only [fanProbes, List.length_cons]
      by_cases hi : i = skip
      · rw [if_pos hi]
        have := ih (i + 1) skip
        omega
      · rw [if_neg hi]
        by_cases hc0 : sh.tree.contains key = true
        · rw [if_pos hc0]
          omega
        · rw [if_neg hc0]
          have := ih (i + 1) skip
          omega

theorem fanProbes_le_of_skip (key : Int) :
    ∀ (shards : List TreeShard) (i skip : Nat), i ≤ skip → skip < i + shards.length →
      fanProbes i skip shards key + 1 ≤ shards.length := by
  intro shards
  induction shards with
  | nil => intro i skip h1 h2; simp at h2; omega
  | cons sh rest ih =>
      intro i skip h1 h2
      simp only [List.length_cons] at h2 ⊢
      simp only [fanProbes]
      by_cases hi : i = skip
      · rw [if_pos hi]
        have := fanProbes_le key rest (i + 1) skip
        omega
      · rw [if_neg hi]
        by_cases hc0 : sh.tree.contains key = true
        · rw [if_pos hc0]
          omega
        · rw [if_neg hc0]
          have := ih (i + 1) skip (by omega) (by omega)
          omega

/-- Claim C1 (amended): with the routed shard index in range, `contains` finds
a key exactly when some shard's BOM holds it — via the routed probe plus the
unconditional fan-out — and performs at most `N` BOM probes (`N` the shard
count).  The code maintains no redirect index, so no two-probe bound holds. -/
theorem c1_lookup_fanout_bound (route : Int → Nat) (st : AVLTreeAdaptive)
    (key : Int) (hroute : route key < st.shards.length) :
    (AVLTreeAdaptive.contains route st key = true ↔
      ∃ j sh, st.shards.get? j = some sh ∧ sh.tree.contains key = true) ∧
    AVLTreeAdaptive.containsProbes route st key ≤ st.shards.length := by
  obtain ⟨sh0, hsh0⟩ : ∃ sh0, st.shards.get? (route key) = some sh0 :=
    ⟨_, List.get?_eq_get hroute⟩
  by_cases hc0 : sh0.tree.contains key = true
  · constructor
    · simp only [AVLTreeAdaptive.contains, hsh0, if_pos hc0]
      exact ⟨fun _ => ⟨route key, sh0, hsh0, hc0⟩, fun _ => trivial⟩
    · simp only [AVLTreeAdaptive.containsProbes, hsh0, if_pos hc0]
      omega
  · constructor
    · simp only [AVLTreeAdaptive.contains, hsh0, if_neg hc0]
      rw [fanContains_iff key st.shards 0 (route key)]
      constructor
      · rintro ⟨j, sh, hget, hne, hc⟩
        exact ⟨j, sh, hget, hc⟩
      · rintro ⟨j, sh, hget, hc⟩
        refine ⟨j, sh, hget, ?_, hc⟩
        intro hj
        have hj2 : j = route key := by omega
        rw [hj2, hsh0] at hget
        injection hget with hget
        subst hget
        exact hc0 hc
    · simp only [AVLTreeAdaptive.containsProbes, hsh0, if_neg hc0]
      have := fanProbes_le_of_skip key st.shards 0 (route key) (by omega) (by omega)
      omega

def emptyShard : TreeShard := ⟨⟨.nil, 0⟩, 0⟩

/-- Modelled from the spec: the natural-shard function of the router over
three shards for integer keys, `stable_hash(k) mod N` with the identity hash
(spec §4.3); `AdaptiveRouter.h` is absent from `src/`. -/
def naturalMod3 (k : Int) : Nat := (k % 3).toNat

/-- The store after one insert of key 0 while the LOAD_AWARE/INTELLIGENT
router had diverted key 0 to shard 2 (its natural shard 0 was flagged hot);
at lookup time the hotspot has cleared and routing returns the natural
shard. -/
def c1Store : AVLTreeAdaptive :=
  AVLTreeAdaptive.insert (fun _ => 2) ⟨[emptyShard, emptyShard, emptyShard], [0, 0, 0]⟩ 0 0

/-- Claim C1 counterexample: key 0 is live (shard 2 holds it), its natural
shard is 0 ≠ 2, the store has no redirect index to map it (lookup constantly
`none`), and the routed lookup takes three BOM probes — the claimed invariant
disjunction is false and the two-probe bound fails. -/
theorem c1_two_probe_invariant_fails :
    shardsContaining c1Store 0 = [2] ∧
    naturalMod3 0 = 0 ∧
    AVLTreeAdaptive.redirectLookup c1Store 0 = none ∧
    ¬ (naturalMod3 0 = 2 ∨ AVLTreeAdaptive.redirectLookup c1Store 0 = some 2) ∧
    AVLTreeAdaptive.containsProbes naturalMod3 c1Store 0 = 3 ∧
    ¬ (AVLTreeAdaptive.containsProbes naturalMod3 c1Store 0 ≤ 2) := by
  decide

theorem c1_lookup_fanout_bound_witness :
    (naturalMod3 0 < c1Store.shards.length) ∧
    ((AVLTreeAdaptive.contains naturalMod3 c1Store 0 = true ↔
        ∃ j sh, c1Store.shards.get? j = some sh ∧ sh.tree.contains 0 = true) ∧
      AVLTreeAdaptive.containsProbes naturalMod3 c1Store 0 ≤ c1Store.shards.length) :=
  ⟨by decide, c1_lookup_fanout_bound naturalMod3 c1Store 0 (by decide)⟩

/-- Claim C9: whenever some shard's BOM holds the key, `contains` returns
`true` and `get` returns that shard's stored value, whatever shard the router
suggests — the lookup falls back to probing every other shard, so lookup
correctness does not depend on the router or on redirect bookkeeping. -/
theorem c9_lookup_router_independent (route : Int → Nat) (st : AVLTreeAdaptive)
    (key : Int) (hroute : route key < st.shards.length)
    (hlive : ∃ j sh, st.shards.get? j = some sh ∧ sh.tree.contains key = true) :
    AVLTreeAdaptive.contains route st key = true ∧
    ∃ j sh, st.shards.get? j = some sh ∧ sh.tree.contains key = true ∧
      AVLTreeAdaptive.get route st key = sh.tree.get key ∧
      (∀ w, isBST sh.tree.root = true → memVal key w sh.tree.root = true →
        AVLTreeAdaptive.get route st key = .ok w) := by
  obtain ⟨sh0, hsh0⟩ : ∃ sh0, st.shards.get? (route key) = some sh0 :=
    ⟨_, List.get?_eq_get hroute⟩
  by_cases hc0 : sh0.tree.contains key = true
  · refine ⟨by simp only [AVLTreeAdaptive.contains, hsh0, if_pos hc0],
      route key, sh0, hsh0, hc0, ?_, ?_⟩
    · simp only [AVLTreeAdaptive.get, hsh0, if_pos hc0]
    · intro w hbst hmv
      simp only [AVLTreeAdaptive.get, hsh0, if_pos hc0]
      exact (getRec_ok_iff hbst).2 hmv
  · obtain ⟨j, sh, hget, hc⟩ := hlive
    have hne : 0 + j ≠ route key := by
      intro hj
      have hj2 : j = route key := by omega
      rw [hj2, hsh0] at hget
      injection hget with hget
      subst hget
      exact hc0 hc
    have hfc : fanContains 0 (route key) st.shards key = true :=
      (fanContains_iff key st.shards 0 (route key)).2 ⟨j, sh, hget, hne, hc⟩
    obtain ⟨j2, sh2, hget2, hne2, hc2, hg2⟩ :=
      fanGet_spec key st.shards 0 (route key) hfc
    refine ⟨?_, j2, sh2, hget2, hc2, ?_, ?_⟩
    · simp only [AVLTreeAdaptive.contains, hsh0, if_neg hc0]
      exact hfc
    · simp only [AVLTreeAdaptive.get, hsh0, if_neg hc0]
      exact hg2
    · intro w hbst hmv
      simp only [AVLTreeAdaptive.get, hsh0, if_neg hc0]
      rw [hg2]
      exact (getRec_ok_iff hbst).2 hmv

def c9Store : AVLTreeAdaptive :=
  ⟨[emptyShard, ⟨AVLTreeC.insert ⟨.nil, 0⟩ 5 55, 1⟩, emptyShard], [0, 1, 0]⟩

theorem c9_lookup_router_independent_witness :
    ((fun _ : Int => 2) 5 < c9Store.shards.length) ∧
    (∃ j sh, c9Store.shards.get? j = some sh ∧ sh.tree.contains 5 = true) ∧
    (AVLTreeAdaptive.contains (fun _ : Int => 2) c9Store 5 = true ∧
     ∃ j sh, c9Store.shards.get? j = some sh ∧ sh.tree.contains 5 = true ∧
       AVLTreeAdaptive.get (fun _ : Int => 2) c9Store 5 = sh.tree.get 5 ∧
       (∀ w, isBST sh.tree.root = true → memVal 5 w sh.tree.root = true →
         AVLTreeAdaptive.get (fun _ : Int => 2) c9Store 5 = .ok w)) :=
  ⟨by decide, ⟨1, ⟨AVLTreeC.insert ⟨.nil, 0⟩ 5 55, 1⟩, by decide, by decide⟩,
   c9_lookup_router_independent (fun _ : Int => 2) c9Store 5 (by decide)
     ⟨1, ⟨AVLTreeC.insert ⟨.nil, 0⟩ 5 55, 1⟩, by decide, by decide⟩⟩

/-! Counter agreement (claim C7). -/

theorem removeScan_counters (key : Int) :
    ∀ (shards : List TreeShard), (∀ sh ∈ shards, sh.local_size = sh.tree.size) →
      ∀ sh ∈ (removeScan shards key).1, sh.local_size = sh.tree.size := by
  intro shards
  induction shards with
  | nil => intro _ sh hsh; simp [removeScan] at hsh
  | cons sh rest ih =>
      intro hC sh2 hsh2
      have hhead := hC sh (List.mem_cons_self _ _)
      have htail : ∀ s ∈ rest, s.local_size = s.tree.size :=
        fun s hs => hC s (List.mem_cons_of_mem _ hs)
      simp only [removeScan] at hsh2
      by_cases hsk : (sh.tree.remove key).size < sh.tree.size
      · rw [if_pos hsk] at hsh2
        rcases List.mem_cons.1 hsh2 with rfl | hmem
        · simp only
          rw [AVLTreeC.remove_size] at hsk ⊢
          by_cases hf : (removeRec sh.tree.root key).2 = true
          · rw [if_pos hf] at hsk ⊢
            omega
          · rw [if_neg hf] at hsk
            omega
        · exact htail _ hmem
      · rw [if_neg hsk] at hsh2
        rcases List.mem_cons.1 hsh2 with rfl | hmem
        · simp only
          rw [AVLTreeC.remove_size] at hsk ⊢
          by_cases hf : (removeRec sh.tree.root key).2 = true
          · rw [if_pos hf] at hsk ⊢
            omega
          · rw [if_neg hf] at hsk ⊢
            omega
        · exact ih htail sh2 hmem

/-- Claim C7: after every completed mutation, each shard's element counter
equals its BOM's `size()`, and the store's `size()` is the sum of the shard
counters. -/
theorem c7_counters_agree_after_mutation (route : Int → Nat)
    (st : AVLTreeAdaptive) (key value : Int)
    (hC : ∀ sh ∈ st.shards, sh.local_size = sh.tree.size) :
    (∀ sh ∈ (AVLTreeAdaptive.insert route st key value).shards,
       sh.local_size = sh.tree.size) ∧
    (∀ sh ∈ (AVLTreeAdaptive.remove st key).shards,
       sh.local_size = sh.tree.size) ∧
    AVLTreeAdaptive.size (AVLTreeAdaptive.insert route st key value) =
      sumCounters (AVLTreeAdaptive.insert route st key value).shards ∧
    AVLTreeAdaptive.size (AVLTreeAdaptive.remove st key) =
      sumCounters (AVLTreeAdaptive.remove st key).shards := by
  refine ⟨?_, ?_, rfl, rfl⟩
  · cases hidx : st.shards.get? (route key) with
    | none =>
        simp only [AVLTreeAdaptive.insert, hidx]
        exact hC
    | some sh =>
        have hsh : sh ∈ st.shards := List.get?_mem hidx
        have hagree := hC sh hsh
        simp only [AVLTreeAdaptive.insert, hidx]
        by_cases hgrow : (sh.tree.insert key value).size > sh.tree.size
        · rw [if_pos hgrow]
          intro sh2 hsh2
          rcases List.mem_or_eq_of_mem_set hsh2 with hmem | rfl
          · exact hC sh2 hmem
          · simp only
            rw [AVLTreeC.insert_size] at hgrow ⊢
            by_cases hf : (insertRec sh.tree.root key value).2 = true
            · rw [if_pos hf] at hgrow ⊢
              omega
            · rw [if_neg hf] at hgrow
              omega
        · rw [if_neg hgrow]
          intro sh2 hsh2
          rcases List.mem_or_eq_of_mem_set hsh2 with hmem | rfl
          · exact hC sh2 hmem
          · simp only
            rw [AVLTreeC.insert_size] at hgrow ⊢
            by_cases hf : (insertRec sh.tree.root key value).2 = true
            · rw [if_pos hf] at hgrow
              omega
            · rw [if_neg hf] at hgrow ⊢
              omega
  · exact removeScan_counters key st.shards hC

def c7Store : AVLTreeAdaptive :=
  ⟨[⟨AVLTreeC.insert ⟨.nil, 0⟩ 1 11, 1⟩, emptyShard], [1, 0]⟩

theorem c7_counters_agree_after_mutation_witness :
    (∀ sh ∈ c7Store.shards, sh.local_size = sh.tree.size) ∧
    ((∀ sh ∈ (AVLTreeAdaptive.insert (fun _ : Int => 0) c7Store 1 99).shards,
        sh.local_size = sh.tree.size) ∧
     (∀ sh ∈ (AVLTreeAdaptive.remove c7Store 1).shards,
        sh.local_size = sh.tree.size) ∧
     AVLTreeAdaptive.size (AVLTreeAdaptive.insert (fun _ : Int => 0) c7Store 1 99) =
       sumCounters (AVLTreeAdaptive.insert (fun _ : Int => 0) c7Store 1 99).shards ∧
     AVLTreeAdaptive.size (AVLTreeAdaptive.remove c7Store 1) =
       sumCounters (AVLTreeAdaptive.remove c7Store 1).shards) :=
  ⟨by decide, c7_counters_agree_after_mutation (fun _ : Int => 0) c7Store 1 99
    (by decide)⟩

/-! The removal scan (claim C6). -/

/-- The shard-level invariants: tree invariants plus agreement of the `size_`
field with the stored key count. -/
def GoodShard (sh : TreeShard) : Prop :=
  isBST sh.tree.root = true ∧ heightsOK sh.tree.root = true ∧
  balancedOK sh.tree.root = true ∧ sh.tree.size = sizeK sh.tree.root

instance (sh : TreeShard) : Decidable (GoodShard sh) :=
  decidable_of_iff
    (isBST sh.tree.root = true ∧ heightsOK sh.tree.root = true ∧
      balancedOK sh.tree.root = true ∧ sh.tree.size = sizeK sh.tree.root)
    Iff.rfl

/-- Under the shard invariants, a removal attempt shrinks the tree's `size()`
exactly when the shard holds the key. -/
theorem shrink_iff_contains (sh : TreeShard) (key : Int) (hG : GoodShard sh) :
    ((sh.tree.remove key).size < sh.tree.size) ↔ sh.tree.contains key = true := by
  obtain ⟨hb, hh, hbal, hsz⟩ := hG
  rw [AVLTreeC.remove_size]
  have hflag := (remove_sound sh.tree.root key hb hh hbal).2.2.1
  by_cases hc : containsRec sh.tree.root key = true
  · have hmem := memK_of_contains hc
    have hpos := memK_sizeK_pos hmem
    rw [hflag, hc]
    simp only [if_true]
    constructor
    · intro _; exact hc
    · intro _; omega
  · have hcf : containsRec sh.tree.root key = false := by
      cases hcc : containsRec sh.tree.root key
      · rfl
      · exact absurd hcc hc
    rw [hflag, hcf]
    simp only [Bool.false_eq_true, if_false]
    constructor
    · omega
    · intro hcc
      exact absurd hcc hc

/-- Removing an absent key leaves the shard's tree object unchanged. -/
theorem remove_absent_tree (t : AVLTreeC) (key : Int)
    (hb : isBST t.root = true) (hh : heightsOK t.root = true)
    (hbal : balancedOK t.root = true) (hc : t.contains key = false) :
    t.remove key = t := by
  have hid := remove_absent_id t.root key hb hh hbal hc
  have h1 : (t.remove key).root = t.root := by
    rw [AVLTreeC.remove_root, hid]
  have h2 : (t.remove key).size = t.size := by
    rw [AVLTreeC.remove_size, hid]
    simp
  calc t.remove key = ⟨(t.remove key).root, (t.remove key).size⟩ := rfl
    _ = ⟨t.root, t.size⟩ := by rw [h1, h2]
    _ = t := rfl

/-- Characterization of the code's removal scan: it walks the shards in index
order and performs at most one removal, at the first shard whose tree holds
the key; shards before it (and the whole store when no shard holds the key)
are left unchanged. -/
theorem removeScan_spec (key : Int) :
    ∀ (shards : List TreeShard), (∀ sh ∈ shards, GoodShard sh) →
      (firstIdx shards key = none → removeScan shards key = (shards, none)) ∧
      (∀ i, firstIdx shards key = some i →
        ∃ sh, shards.get? i = some sh ∧ sh.tree.contains key = true ∧
          removeScan shards key =
            (shards.set i { tree := sh.tree.remove key,
                            local_size := sh.local_size - 1 },
             some i)) := by
  intro shards
  induction shards with
  | nil =>
      intro _
      refine ⟨fun _ => rfl, fun i hi => ?_⟩
      simp [firstIdx] at hi
  | cons sh rest ih =>
      intro hG
      have hGh := hG sh (List.mem_cons_self _ _)
      have hGt : ∀ s ∈ rest, GoodShard s := fun s hs => hG s (List.mem_cons_of_mem _ hs)
      obtain ⟨ih1, ih2⟩ := ih hGt
      by_cases hc : sh.tree.contains key = true
      · have hsk : (sh.tree.remove key).size < sh.tree.size :=
          (shrink_iff_contains sh key hGh).2 hc
        constructor
        · intro hnone
          simp only [firstIdx, if_pos hc] at hnone
          exact Option.noConfusion hnone
        · intro i hi
          simp only [firstIdx, if_pos hc] at hi
          injection hi with hi
          subst hi
          refine ⟨sh, rfl, hc, ?_⟩
          simp only [removeScan, if_pos hsk, List.set]
      · have hnsk : ¬ (sh.tree.remove key).size < sh.tree.size := by
          intro hcon
          exact hc ((shrink_iff_contains sh key hGh).1 hcon)
        have hcf : sh.tree.contains key = false := by
          cases hcc : sh.tree.contains key
          · rfl
          · exact absurd hcc hc
        have htree : sh.tree.remove key = sh.tree :=
          remove_absent_tree sh.tree key hGh.1 hGh.2.1 hGh.2.2.1 hcf
        have hshard : ({ tree := sh.tree.remove key, local_size := sh.local_size } :
            TreeShard) = sh := by
          rw [htree]
        constructor
        · intro hnone
          simp only [firstIdx, if_neg hc] at hnone
          cases hfi : firstIdx rest key with
          | none =>
              simp only [removeScan, if_neg hnsk, ih1 hfi, hshard]
              rfl
          | some i' =>
              rw [hfi] at hnone
              simp at hnone
        · intro i hi
          simp only [firstIdx, if_neg hc] at hi
          cases hfi : firstIdx rest key with
          | none =>
              rw [hfi] at hi
              simp at hi
          | some i' =>
              rw [hfi] at hi
              have hi2 : i' + 1 = i := by simpa using hi
              subst hi2
              obtain ⟨sh2, hget2, hc2, hscan2⟩ := ih2 i' hfi
              refine ⟨sh2, by simpa using hget2, hc2, ?_⟩
              simp only [removeScan, if_neg hnsk, hscan2, hshard, List.set]
              rfl

/-- Claim C6 (amended): the code's `remove` does not consult the router or
any redirect index — it scans all shards in index order, performs at most one
removal, at the first shard whose BOM holds the key (updating that shard's
counter and the router load for that shard), and is a no-op when no shard
holds the key. -/
theorem c6_remove_scan_semantics (st : AVLTreeAdaptive) (key : Int)
    (hG : ∀ sh ∈ st.shards, GoodShard sh) :
    (firstIdx st.shards key = none → AVLTreeAdaptive.remove st key = st) ∧
    (∀ i, firstIdx st.shards key = some i →
      ∃ sh, st.shards.get? i = some sh ∧ sh.tree.contains key = true ∧
        AVLTreeAdaptive.remove st key =
          { shards := st.shards.set i { tree := sh.tree.remove key,
                                        local_size := sh.local_size - 1 },
            loads := adjustAt st.loads i (-1) }) := by
  obtain ⟨h1, h2⟩ := removeScan_spec key st.shards hG
  constructor
  · intro hnone
    simp only [AVLTreeAdaptive.remove, h1 hnone]
  · intro i hi
    obtain ⟨sh, hget, hc, hscan⟩ := h2 i hi
    refine ⟨sh, hget, hc, ?_⟩
    simp only [AVLTreeAdaptive.remove, hscan]

def t5 : AVLTreeC := AVLTreeC.insert ⟨.nil, 0⟩ 5 50

/-- A store in which key 5 sits in shards 0 and 2 (reachable: key 5 was
inserted once while routed to shard 0 and once while diverted to shard 2),
with the router now routing key 5 to shard 2. -/
def c6Store : AVLTreeAdaptive := ⟨[⟨t5, 1⟩, emptyShard, ⟨t5, 1⟩], [1, 0, 1]⟩

def route2 : Int → Nat := fun _ => 2

/-- Claim C6 counterexample: the claimed attempt order (routed shard first,
then redirect target, then the rest) and the code's index-order scan produce
different stores: the code removes key 5 from shard 0 even though the router
routes key 5 to shard 2, while the spec-ordered removal takes it from
shard 2. -/
theorem c6_remove_order_differs :
    route2 5 = 2 ∧
    (c6Store.shards.get? 2).map (fun sh => sh.tree.contains 5) = some true ∧
    AVLTreeAdaptive.remove c6Store 5 ≠
      removeSpecOrder route2 (fun _ => none) c6Store 5 ∧
    shardsContaining (AVLTreeAdaptive.remove c6Store 5) 5 = [2] ∧
    shardsContaining (removeSpecOrder route2 (fun _ => none) c6Store 5) 5 = [0] := by
  decide

theorem c6_remove_scan_semantics_witness :
    (∀ sh ∈ c6Store.shards, GoodShard sh) ∧
    ((firstIdx c6Store.shards 5 = none → AVLTreeAdaptive.remove c6Store 5 = c6Store) ∧
     (∀ i, firstIdx c6Store.shards 5 = some i →
       ∃ sh, c6Store.shards.get? i = some sh ∧ sh.tree.contains 5 = true ∧
         AVLTreeAdaptive.remove c6Store 5 =
           { shards := c6Store.shards.set i { tree := sh.tree.remove 5,
                                              local_size := sh.local_size - 1 },
             loads := adjustAt c6Store.loads i (-1) })) :=
  ⟨by decide, c6_remove_scan_semantics c6Store 5 (by decide)⟩
